import Mathlib

/-!
# WaterPot: the serial command pipeline of `main.c`

A shallow embedding of the line reader (`getsUart0`), the field tokenizer
(`parseField`), the field accessors (`getFieldString`, `getFieldInteger`), the
command predicate (`isCommand`) and the command part of the loop of `main`.

Conventions of the embedding.

* A `char` is a natural number (its code); plain `char` is unsigned on the target.
* The arrays of `USER_DATA` are lists whose length is the declared size
  (`MAX_CHARS+1` for `buffer`, `MAX_FIELDS` for the two field arrays); an access
  with an index outside the list is an out-of-bounds access of the C program and
  is reported as a `Fault` instead of being given a meaning.
* Loops are written as a step function iterated on a counter that only bounds the
  number of iterations; `Fault.fuel` is the answer of an exhausted counter.
-/

namespace WaterPot

/-- The macro `MAX_CHARS`. -/
def MAX_CHARS : Nat := 80

/-- The macro `MAX_FIELDS`. -/
def MAX_FIELDS : Nat := 5

/-- Ways in which a run of the C code leaves defined behaviour (or never returns). -/
inductive Fault where
  /-- `buffer[i]` with `i` outside the array. -/
  | bufferBounds (i : Nat)
  /-- `fieldType[i]` or `fieldPosition[i]` with `i` outside the arrays. -/
  | fieldBounds (i : Int)
  /-- `FS[i]` with `i` outside the global scratch string. -/
  | fsBounds (i : Nat)
  /-- A `double` outside the range of `uint32_t` is converted to `uint32_t`. -/
  | conversion
  /-- `getcUart0` waits for a byte that never comes. -/
  | noInput
  /-- The iteration counter of the embedding ran out. -/
  | fuel
  deriving DecidableEq, Repr

/-- The struct `USER_DATA`. -/
structure USER_DATA where
  buffer : List Nat
  fieldCount : Nat
  fieldPosition : List Nat
  fieldType : List Nat
  deriving DecidableEq, Repr

/-- The arrays of a `USER_DATA` have their declared sizes. -/
def USER_DATA.WF (d : USER_DATA) : Prop :=
  d.buffer.length = MAX_CHARS + 1 ∧ d.fieldPosition.length = MAX_FIELDS ∧
    d.fieldType.length = MAX_FIELDS

instance (d : USER_DATA) : Decidable d.WF := by
  unfold USER_DATA.WF; infer_instance

/-- The test `(c >= 65 && c <= 90) || (c >= 97 && c <= 122)` of `parseField`. -/
def isAlpha (c : Nat) : Bool := (65 ≤ c && c ≤ 90) || (97 ≤ c && c ≤ 122)

/-- The test `(c >= 48) && (c <= 57)` of `parseField`. -/
def isDigit (c : Nat) : Bool := 48 ≤ c && c ≤ 57

/-! ## getsUart0 -/

/-- The store `data->buffer[i] = c`. -/
def writeBuffer (d : USER_DATA) (i c : Nat) : Except Fault USER_DATA :=
  if i < d.buffer.length then .ok { d with buffer := d.buffer.set i c }
  else .error (.bufferBounds i)

/-- The loop of `getsUart0`; the list is the stream of bytes that `getcUart0`
delivers, and the bytes not consumed are returned with the structure. -/
def getsLoop : List Nat → USER_DATA → Nat → Except Fault (USER_DATA × List Nat)
  | [], _, _ => .error .noInput
  | c :: rest, d, count =>
    if (c = 8 ∨ c = 127) ∧ count > 0 then getsLoop rest d (count - 1)
    else if c = 13 then
      match writeBuffer d count 0 with
      | .error e => .error e
      | .ok d1 => .ok (d1, rest)
    else if c ≥ 32 then
      match writeBuffer d count c with
      | .error e => .error e
      | .ok d1 =>
        if count + 1 = MAX_CHARS + 1 then
          match writeBuffer d1 (count + 1) 0 with
          | .error e => .error e
          | .ok d2 => .ok (d2, rest)
        else getsLoop rest d1 (count + 1)
    else getsLoop rest d count

/-- The function `getsUart0`. -/
def getsUart0 (input : List Nat) (d : USER_DATA) : Except Fault (USER_DATA × List Nat) :=
  getsLoop input d 0

/-! ## parseField -/

/-- What one pass through the body of the `while (true)` of `parseField` ends in. -/
inductive Ctrl where
  /-- The next pass starts (by `continue` or by reaching the end of the body). -/
  | next (d : USER_DATA) (ftc fpc : Nat)
  /-- The `return` was taken. -/
  | ret (d : USER_DATA)
  deriving DecidableEq, Repr

/-- The stores `fieldType[fpc] = t; fieldPosition[fpc] = ftc; fieldCount = fpc + 1`
of the first pass (`ftc == 0`), which leaves the buffer alone. -/
def initField (d : USER_DATA) (t ftc fpc : Nat) : Except Fault USER_DATA :=
  if fpc < d.fieldType.length ∧ fpc < d.fieldPosition.length then
    .ok { d with
      fieldType := d.fieldType.set fpc t
      fieldPosition := d.fieldPosition.set fpc (ftc % 256)
      fieldCount := (fpc + 1) % 256 }
  else .error (.fieldBounds fpc)

/-- The stores `fieldType[fpc] = t; fieldPosition[fpc] = ftc; buffer[ftc-1] = 0;
fieldCount = fpc + 1` of a later pass. -/
def startField (d : USER_DATA) (t ftc fpc : Nat) : Except Fault USER_DATA :=
  if fpc < d.fieldType.length ∧ fpc < d.fieldPosition.length then
    if ftc - 1 < d.buffer.length then
      .ok { d with
        fieldType := d.fieldType.set fpc t
        fieldPosition := d.fieldPosition.set fpc (ftc % 256)
        buffer := d.buffer.set (ftc - 1) 0
        fieldCount := (fpc + 1) % 256 }
    else .error (.bufferBounds (ftc - 1))
  else .error (.fieldBounds fpc)

/-- The read `data->fieldType[fpc-1]`, with `fpc` an `int`. -/
def prevFieldType (d : USER_DATA) : Nat → Except Fault Nat
  | 0 => .error (.fieldBounds (-1))
  | k + 1 =>
    match d.fieldType[k]? with
    | some t => .ok t
    | none => .error (.fieldBounds k)

/-- The condition `!(class of buffer[ftc-1]) || fieldType[fpc-1] == other`, whose
right operand is evaluated only when the left one is false. -/
def boundary (d : USER_DATA) (cls : Nat → Bool) (other ftc fpc : Nat) : Except Fault Bool :=
  match d.buffer[ftc - 1]? with
  | none => .error (.bufferBounds (ftc - 1))
  | some p =>
    if !cls p then .ok true
    else
      match prevFieldType d fpc with
      | .error e => .error e
      | .ok t => .ok (t == other)

/-- The block "Returning" and the `ftc = ftc + 1` after it. -/
def checkReturn (d : USER_DATA) (c ftc fpc : Nat) : Ctrl :=
  if d.fieldCount = MAX_FIELDS ∨ c = 0 then .ret d else .next d (ftc + 1) fpc

/-- The block "Checking for new numerics" and what follows it. -/
def checkNumeric (d : USER_DATA) (c ftc fpc : Nat) : Except Fault Ctrl :=
  if isDigit c then
    match boundary d isDigit 97 ftc fpc with
    | .error e => .error e
    | .ok true =>
      match startField d 110 ftc fpc with
      | .error e => .error e
      | .ok d1 => .ok (.next d1 (ftc + 1) (fpc + 1))
    | .ok false => .ok (checkReturn d c ftc fpc)
  else .ok (checkReturn d c ftc fpc)

/-- The block "Checking for new alphas" and what follows it. -/
def checkAlpha (d : USER_DATA) (c ftc fpc : Nat) : Except Fault Ctrl :=
  if isAlpha c then
    match boundary d isAlpha 110 ftc fpc with
    | .error e => .error e
    | .ok true =>
      match startField d 97 ftc fpc with
      | .error e => .error e
      | .ok d1 => .ok (.next d1 (ftc + 1) (fpc + 1))
    | .ok false => checkNumeric d c ftc fpc
  else checkNumeric d c ftc fpc

/-- The block "Initial check for characters": two `if`s in sequence, then
`ftc = ftc + 1; continue`. -/
def checkInitial (d : USER_DATA) (c ftc fpc : Nat) : Except Fault Ctrl :=
  match (if isAlpha c then
      (match initField d 97 ftc fpc with
       | .error e => .error e
       | .ok d1 => .ok (d1, fpc + 1))
    else .ok (d, fpc) : Except Fault (USER_DATA × Nat)) with
  | .error e => .error e
  | .ok (d1, fpc1) =>
    if isDigit c then
      match initField d1 110 ftc fpc1 with
      | .error e => .error e
      | .ok d2 => .ok (.next d2 (ftc + 1) (fpc1 + 1))
    else .ok (.next d1 (ftc + 1) fpc1)

/-- One pass through the body of the `while (true)` of `parseField`. -/
def parseStep (d : USER_DATA) (ftc fpc : Nat) : Except Fault Ctrl :=
  match d.buffer[ftc]? with
  | none => .error (.bufferBounds ftc)
  | some c => if ftc = 0 then checkInitial d c ftc fpc else checkAlpha d c ftc fpc

/-- The `while (true)` of `parseField`, for at most the given number of passes. -/
def parseLoop : Nat → USER_DATA → Nat → Nat → Except Fault USER_DATA
  | 0, _, _, _ => .error .fuel
  | n + 1, d, ftc, fpc =>
    match parseStep d ftc fpc with
    | .error e => .error e
    | .ok (.ret d1) => .ok d1
    | .ok (.next d1 ftc1 fpc1) => parseLoop n d1 ftc1 fpc1

/-- The function `parseField`. Every pass that does not return moves `ftc` one
place on and a pass with `ftc` past the buffer is a fault, so one pass more than
the buffer has places is enough. -/
def parseField (d : USER_DATA) : Except Fault USER_DATA :=
  parseLoop (d.buffer.length + 1) { d with fieldCount := 0 } 0 0

/-! ## Field accessors -/

/-- The NUL-terminated string that starts a list of `char`s, if it is terminated. -/
def strFrom : List Nat → Option (List Nat)
  | [] => none
  | c :: cs =>
    if c = 0 then some []
    else
      match strFrom cs with
      | none => none
      | some s => some (c :: s)

/-- The NUL-terminated string at `&buf[p]`. -/
def cString (buf : List Nat) (p : Nat) : Option (List Nat) := strFrom (buf.drop p)

/-- The copy loop of `getFieldString` and the store `FS[str] = 0` after it. The
list is the part of the buffer from `buffer[pos + str]` on, and the result is
the string left in `FS`, which has `MAX_CHARS+1` places. -/
def copyField (pos : Nat) : List Nat → Nat → Except Fault (List Nat)
  | [], str => .error (.bufferBounds (pos + str))
  | c :: cs, str =>
    if str < MAX_CHARS + 1 then
      if c ≠ 0 then
        match copyField pos cs (str + 1) with
        | .error e => .error e
        | .ok s => .ok (c :: s)
      else .ok []
    else .error (.fsBounds str)

/-- The function `getFieldString`; the result is the string in `FS`. -/
def getFieldString (d : USER_DATA) (fieldNumber : Nat) : Except Fault (List Nat) :=
  if fieldNumber ≤ MAX_FIELDS then
    match d.fieldType[fieldNumber]? with
    | none => .error (.fieldBounds fieldNumber)
    | some t =>
      if t = 97 ∨ t = 110 then
        match d.fieldPosition[fieldNumber]? with
        | none => .error (.fieldBounds fieldNumber)
        | some p => copyField p (d.buffer.drop p) 0
      else .ok []
  else .ok []

/-- The `while (gap > count_up)` of `getFieldInteger`. The update of `FI` is
done in `double`: `pow(10, count_down)` is taken to be the exact power, and the
sum, an integer, is converted back to `uint32_t`, which is undefined outside
the range of that type. `count_down` is not negative when the body runs. -/
def integerLoop (d : USER_DATA) (fieldNumber gap : Nat) :
    Nat → Nat → Int → Nat → Except Fault Nat
  | 0, count_up, _, FI => if gap > count_up then .error .fuel else .ok FI
  | n + 1, count_up, count_down, FI =>
    if gap > count_up then
      match d.fieldPosition[fieldNumber]? with
      | none => .error (.fieldBounds fieldNumber)
      | some p =>
        match d.buffer[count_up + p]? with
        | none => .error (.bufferBounds (count_up + p))
        | some c =>
          let v : Int := (FI : Int) + ((c : Int) - 48) * 10 ^ count_down.toNat
          if 0 ≤ v ∧ v < 2 ^ 32 then
            integerLoop d fieldNumber gap n (count_up + 1) (count_down - 1) v.toNat
          else .error .conversion
    else .ok FI

/-- The function `getFieldInteger`. It hands `data->buffer` to `getFieldString`,
which is the address of the structure itself (`buffer` is its first member). -/
def getFieldInteger (d : USER_DATA) (fieldNumber : Nat) : Except Fault Nat :=
  match getFieldString d fieldNumber with
  | .error e => .error e
  | .ok int_val =>
    if fieldNumber ≤ MAX_FIELDS then
      integerLoop d fieldNumber int_val.length int_val.length 0 ((int_val.length : Int) - 1) 0
    else .ok 0

/-- The function `isCommand`; `strCommand` is the string before its terminator.
The field number it hands to `getFieldString` is `data->fieldPosition[0]`, and
the comparison of the counts is done in `int`. -/
def isCommand (d : USER_DATA) (strCommand : List Nat) (minArguments : Nat) :
    Except Fault Bool :=
  match d.fieldPosition[0]? with
  | none => .error (.fieldBounds 0)
  | some p0 =>
    match getFieldString d p0 with
    | .error e => .error e
    | .ok check =>
      .ok (decide (check = strCommand) && decide ((d.fieldCount : Int) - 1 ≤ (minArguments : Int)))

/-! ## The command part of the loop of `main` -/

/-- The codes of the characters of a string literal of the source. -/
def chars (s : String) : List Nat := s.toList.map Char.toNat

/-- What the command part of `main` sends over the serial line. -/
inductive Output where
  /-- One pass of the echo loop: the type, a tab, the text of the field, a line end. -/
  | field (t : Nat) (s : List Nat)
  /-- The four report lines of `status` (the sensor readings are hardware). -/
  | status
  /-- The string "Invalid Command". -/
  | invalid
  deriving DecidableEq, Repr

/-- The variables of `main` that the commands set, the register `HIB_RTCLD_R`,
the pump pin and the serial output. `moisture_level`, a `float` in the source,
holds the value of that `float`, which is a whole number. -/
structure MainState where
  HIB_RTCLD_R : Nat
  start_time : Nat
  end_time : Nat
  moisture_level : Nat
  light_level : Int
  pump : Bool
  valid : Bool
  out : List Output
  deriving DecidableEq, Repr

/-- The conversion of a `uint32_t` to `int`. -/
def toInt32 (v : Nat) : Int := if v < 2 ^ 31 then (v : Int) else (v : Int) - 2 ^ 32

/-- The expression `(hour*60*60) + (minutes*60)` in `uint32_t`. -/
def daySeconds (hour minutes : Nat) : Nat := (hour * 60 * 60 + minutes * 60) % 2 ^ 32

/-- The loop `for (i = 0; i < data.fieldCount; i++)` that echoes the fields; the
first argument counts the passes that are left. -/
def echoLoop (d : USER_DATA) : Nat → Nat → Except Fault (List Output)
  | 0, _ => .ok []
  | n + 1, i =>
    match d.fieldType[i]? with
    | none => .error (.fieldBounds i)
    | some t =>
      match d.fieldPosition[i]? with
      | none => .error (.fieldBounds i)
      | some p =>
        match cString d.buffer p with
        | none => .error (.bufferBounds d.buffer.length)
        | some s =>
          match echoLoop d n (i + 1) with
          | .error e => .error e
          | .ok r => .ok (.field t s :: r)

/-- The block `if (isCommand(&data, "status", 0))`. -/
def cmdStatus (d : USER_DATA) (m : MainState) : Except Fault MainState :=
  match isCommand d (chars "status") 0 with
  | .error e => .error e
  | .ok true => .ok { m with out := m.out ++ [.status], valid := true }
  | .ok false => .ok m

/-- The block `if (isCommand(&data, "alert", 1))`. -/
def cmdAlert (d : USER_DATA) (m : MainState) : Except Fault MainState :=
  match isCommand d (chars "alert") 1 with
  | .error e => .error e
  | .ok true =>
    match getFieldInteger d 1 with
    | .error e => .error e
    | .ok v => .ok { m with light_level := toInt32 v, valid := true }
  | .ok false => .ok m

/-- The block `if (isCommand(&data, "pump", 1))`. -/
def cmdPump (d : USER_DATA) (m : MainState) : Except Fault MainState :=
  match isCommand d (chars "pump") 1 with
  | .error e => .error e
  | .ok true =>
    match getFieldString d 1 with
    | .error e => .error e
    | .ok on_off =>
      let m1 := if on_off = chars "on" then { m with pump := true, valid := true } else m
      .ok (if on_off = chars "off" then { m1 with pump := false, valid := true } else m1)
  | .ok false => .ok m

/-- The block `if (isCommand(&data, "time", 2))`. -/
def cmdTime (d : USER_DATA) (m : MainState) : Except Fault MainState :=
  match isCommand d (chars "time") 2 with
  | .error e => .error e
  | .ok true =>
    match getFieldInteger d 1 with
    | .error e => .error e
    | .ok hour =>
      match getFieldInteger d 2 with
      | .error e => .error e
      | .ok minutes => .ok { m with HIB_RTCLD_R := daySeconds hour minutes, valid := true }
  | .ok false => .ok m

/-- The block `if (isCommand(&data, "water", 4))`. -/
def cmdWater (d : USER_DATA) (m : MainState) : Except Fault MainState :=
  match isCommand d (chars "water") 4 with
  | .error e => .error e
  | .ok true =>
    match getFieldInteger d 1 with
    | .error e => .error e
    | .ok hour1 =>
      match getFieldInteger d 2 with
      | .error e => .error e
      | .ok minute1 =>
        match getFieldInteger d 3 with
        | .error e => .error e
        | .ok hour2 =>
          match getFieldInteger d 4 with
          | .error e => .error e
          | .ok minute2 =>
            .ok { m with
              start_time := daySeconds hour1 minute1
              end_time := daySeconds hour2 minute2
              valid := true }
  | .ok false => .ok m

/-- The distance between neighbouring `float` values at a `uint32_t`: 1 below
`2^24`, where the 24 bits of the significand hold the number, and twice as much
for every further bit. -/
def floatSpacing (v : Nat) : Nat :=
  if v < 2 ^ 24 then 1
  else if v < 2 ^ 25 then 2
  else if v < 2 ^ 26 then 4
  else if v < 2 ^ 27 then 8
  else if v < 2 ^ 28 then 16
  else if v < 2 ^ 29 then 32
  else if v < 2 ^ 30 then 64
  else if v < 2 ^ 31 then 128
  else 256

/-- The conversion of a `uint32_t` to `float`: the nearest `float`, and of two
nearest ones the one with the even significand (the rounding of the target). -/
def floatOfUInt32 (v : Nat) : Nat :=
  let q := floatSpacing v
  let lo := v / q * q
  if 2 * (v % q) < q then lo
  else if q < 2 * (v % q) then lo + q
  else if v / q % 2 = 0 then lo
  else lo + q

/-- The block `if (isCommand(&data, "level", 1))`. -/
def cmdLevel (d : USER_DATA) (m : MainState) : Except Fault MainState :=
  match isCommand d (chars "level") 1 with
  | .error e => .error e
  | .ok true =>
    match getFieldInteger d 1 with
    | .error e => .error e
    | .ok v => .ok { m with moisture_level := floatOfUInt32 v, valid := true }
  | .ok false => .ok m

/-- The block `if (!valid)`. -/
def cmdInvalid (m : MainState) : MainState :=
  if !m.valid then { m with out := m.out ++ [.invalid] } else m

/-- The six command blocks of `main` in their order, from `bool valid = false`
to the "Invalid Command" notice. -/
def runCommands (d : USER_DATA) (m : MainState) : Except Fault MainState :=
  (cmdStatus d { m with valid := false }).bind fun m1 =>
  (cmdAlert d m1).bind fun m2 =>
  (cmdPump d m2).bind fun m3 =>
  (cmdTime d m3).bind fun m4 =>
  (cmdWater d m4).bind fun m5 =>
  (cmdLevel d m5).bind fun m6 => .ok (cmdInvalid m6)

/-- The part of the loop of `main` that follows the echo of the line: the call of
`parseField`, the echo of the fields and the command blocks. -/
def dispatch (d : USER_DATA) (m : MainState) : Except Fault (USER_DATA × MainState) :=
  (parseField d).bind fun d1 =>
  (echoLoop d1 d1.fieldCount 0).bind fun o =>
  (runCommands d1 { m with out := m.out ++ o }).bind fun m1 => .ok (d1, m1)

/-- The function `isWateringAllowed`, on `uint32_t` values. -/
def isWateringAllowed (time_of_day start_time end_time : Nat) : Bool :=
  decide (time_of_day > start_time) && decide (time_of_day < end_time)

/-! ## Lines, words and concrete structures used in the statements -/

instance decEqExcept {ε α : Type} [DecidableEq ε] [DecidableEq α] : DecidableEq (Except ε α)
  | .ok a, .ok b =>
    if h : a = b then isTrue (by rw [h]) else isFalse (fun h1 => h (Except.ok.inj h1))
  | .error a, .error b =>
    if h : a = b then isTrue (by rw [h]) else isFalse (fun h1 => h (Except.error.inj h1))
  | .ok _, .error _ => isFalse (fun h => by cases h)
  | .error _, .ok _ => isFalse (fun h => by cases h)

/-- A structure all of whose bytes are zero. -/
def zeroData : USER_DATA :=
  { buffer := List.replicate (MAX_CHARS + 1) 0
    fieldCount := 0
    fieldPosition := List.replicate MAX_FIELDS 0
    fieldType := List.replicate MAX_FIELDS 0 }

/-- A zeroed structure whose buffer holds a line and its terminator. -/
def lineData (line : List Nat) : USER_DATA :=
  { zeroData with buffer := line ++ 0 :: List.replicate (MAX_CHARS - line.length) 0 }

/-- The calls `getsUart0(&data); parseField(&data);` of `main` when the line and
a carriage return are typed. -/
def enterLine (line : List Nat) (d : USER_DATA) : Except Fault USER_DATA :=
  match getsUart0 (line ++ [13]) d with
  | .error e => .error e
  | .ok (d1, _) => parseField d1

/-- The text of field `i`: the NUL-terminated string at
`&buffer[fieldPosition[i]]`. -/
def fieldText (d : USER_DATA) (i : Nat) : Option (List Nat) :=
  match d.fieldPosition[i]? with
  | none => none
  | some p => cString d.buffer p

/-- The sum over `k` of `(d_k - '0') * 10^(n-1-k)` for the string `d_0 ... d_(n-1)`. -/
def decimalSum : List Nat → Nat
  | [] => 0
  | c :: cs => (c - 48) * 10 ^ cs.length + decimalSum cs

/-- A word followed by separator and word pairs, written out as a line. -/
def joinLine : List Nat → List (Nat × List Nat) → List Nat
  | w, [] => w
  | w, (s, w1) :: rest => w ++ s :: joinLine w1 rest

/-- A word: a non-empty run of only ASCII letters or of only ASCII digits. -/
def IsWord (w : List Nat) : Prop :=
  w ≠ [] ∧ ((∀ c ∈ w, isAlpha c = true) ∨ (∀ c ∈ w, isDigit c = true))

/-- A separator: a character that is no letter, no digit and not NUL. -/
def IsSeparator (s : Nat) : Prop := isAlpha s = false ∧ isDigit s = false ∧ s ≠ 0

/-- The type letter of a word: `'a'` for letters, `'n'` for digits. -/
def wordType (w : List Nat) : Nat :=
  match w with
  | [] => 110
  | c :: _ => if isAlpha c then 97 else 110

/-- The class of a character: 1 for a letter, 2 for a digit, 0 for the rest. -/
def classOf (c : Nat) : Nat := if isAlpha c then 1 else if isDigit c then 2 else 0

/-- The maximal runs of letters and of digits of a line, in their order. -/
def classRuns (line : List Nat) : List (List Nat) :=
  (line.splitBy fun a b => classOf a == classOf b).filter fun g => g.all fun c => classOf c != 0

/-- The texts of the fields `0 .. fieldCount-1`. -/
def fieldTexts (d : USER_DATA) : List (Option (List Nat)) :=
  (List.range d.fieldCount).map (fieldText d)

/-- The list with the places `k, k+1, ...` overwritten by the given values. -/
def setFrom (l : List Nat) : Nat → List Nat → List Nat
  | _, [] => l
  | k, v :: vs => setFrom (l.set k v) (k + 1) vs

/-- The offsets at which the words after a word that starts at `p` start. -/
def starts : Nat → List Nat → List (Nat × List Nat) → List Nat
  | _, _, [] => []
  | p, w, (_, w1) :: rest => (p + w.length + 1) :: starts (p + w.length + 1) w1 rest

/-- The line with every separator replaced by NUL. -/
def nulJoin : List Nat → List (Nat × List Nat) → List Nat
  | w, [] => w
  | w, (_, w1) :: rest => w ++ 0 :: nulJoin w1 rest

/-- What one byte does to the line typed so far: a byte 8 or 127 removes the last
character if there is one, a byte from 32 on is appended, every other byte is
ignored. -/
def editStep (s : List Nat) (b : Nat) : List Nat :=
  if b = 8 ∨ b = 127 then s.dropLast else if b ≥ 32 then s ++ [b] else s

/-- One of the six command blocks of `main` sets `valid`: `status`, `alert`,
`time`, `water` or `level` matches, or `pump` matches and its argument is "on"
or "off". -/
def Handled (d : USER_DATA) : Prop :=
  isCommand d (chars "status") 0 = .ok true ∨ isCommand d (chars "alert") 1 = .ok true ∨
  (isCommand d (chars "pump") 1 = .ok true ∧
    (getFieldString d 1 = .ok (chars "on") ∨ getFieldString d 1 = .ok (chars "off"))) ∨
  isCommand d (chars "time") 2 = .ok true ∨ isCommand d (chars "water") 4 = .ok true ∨
  isCommand d (chars "level") 1 = .ok true

instance (d : USER_DATA) : Decidable (Handled d) := by
  unfold Handled; infer_instance

/-! ## Notions used in the proofs -/

/-- What a pass that goes on to a next pass has done: the structure of the next
pass comes from a field start or is the old one. -/
inductive StepKind (d : USER_DATA) (ftc fpc : Nat) : USER_DATA → Nat → Prop where
  | same : StepKind d ftc fpc d fpc
  | init (t : Nat) (d1 : USER_DATA) : ftc = 0 → (t = 97 ∨ t = 110) →
      initField d t ftc fpc = .ok d1 → StepKind d ftc fpc d1 (fpc + 1)
  | start (t : Nat) (d1 : USER_DATA) : 0 < ftc → (t = 97 ∨ t = 110) →
      startField d t ftc fpc = .ok d1 → StepKind d ftc fpc d1 (fpc + 1)

/-- The invariant of the passes of `parseField` on the structure `d0` that
relates the field table to the stores into the buffer: the array sizes are
kept, `fpc` fields are counted, the buffer differs from the one of `d0` only
in the place before a recorded offset, that place holds NUL, and the recorded
offsets are below `ftc` and increase. -/
def Frame (d0 d : USER_DATA) (ftc fpc : Nat) : Prop :=
  d.buffer.length = d0.buffer.length ∧ d.fieldPosition.length = d0.fieldPosition.length ∧
  d.fieldCount = fpc ∧ fpc ≤ d.fieldPosition.length ∧
  (∀ j : Nat, d.buffer[j]? ≠ d0.buffer[j]? →
    ∃ i p : Nat, i < fpc ∧ d.fieldPosition[i]? = some p ∧ 1 ≤ p ∧ j = p - 1) ∧
  (∀ i p : Nat, i < fpc → d.fieldPosition[i]? = some p → 1 ≤ p → d.buffer[p - 1]? = some 0) ∧
  (∀ i p : Nat, i < fpc → d.fieldPosition[i]? = some p → p < ftc) ∧
  (∀ i j p q : Nat, i < j → j < fpc → d.fieldPosition[i]? = some p →
    d.fieldPosition[j]? = some q → p < q)

/-- A character of the class that a type letter stands for. -/
def InClass (t c : Nat) : Prop := (t = 97 ∧ isAlpha c = true) ∨ (t = 110 ∧ isDigit c = true)

instance (w : List Nat) : Decidable (IsWord w) := by
  unfold IsWord; infer_instance

instance (s : Nat) : Decidable (IsSeparator s) := by
  unfold IsSeparator; infer_instance

/-! # Theorems -/

/-! ## Facts about one pass of `parseField` -/

theorem isAlpha_not_isDigit {c : Nat} (h : isAlpha c = true) : isDigit c = false := by
  simp only [isAlpha, Bool.or_eq_true, Bool.and_eq_true, decide_eq_true_eq] at h
  cases hd : isDigit c
  · rfl
  · simp only [isDigit, Bool.and_eq_true, decide_eq_true_eq] at hd
    omega

theorem initField_ok {d d1 : USER_DATA} {t ftc fpc : Nat} (h : initField d t ftc fpc = .ok d1) :
    fpc < d.fieldType.length ∧ fpc < d.fieldPosition.length ∧
      d1 = { d with
        fieldType := d.fieldType.set fpc t
        fieldPosition := d.fieldPosition.set fpc (ftc % 256)
        fieldCount := (fpc + 1) % 256 } := by
  unfold initField at h
  split at h
  · rename_i hb
    exact ⟨hb.1, hb.2, (Except.ok.inj h).symm⟩
  · cases h

theorem startField_ok {d d1 : USER_DATA} {t ftc fpc : Nat} (h : startField d t ftc fpc = .ok d1) :
    fpc < d.fieldType.length ∧ fpc < d.fieldPosition.length ∧ ftc - 1 < d.buffer.length ∧
      d1 = { d with
        fieldType := d.fieldType.set fpc t
        fieldPosition := d.fieldPosition.set fpc (ftc % 256)
        buffer := d.buffer.set (ftc - 1) 0
        fieldCount := (fpc + 1) % 256 } := by
  unfold startField at h
  split at h
  · rename_i hb
    split at h
    · rename_i hc
      exact ⟨hb.1, hb.2, hc, (Except.ok.inj h).symm⟩
    · cases h
  · cases h

theorem checkReturn_next {d d1 : USER_DATA} {c ftc fpc ftc1 fpc1 : Nat}
    (h : checkReturn d c ftc fpc = .next d1 ftc1 fpc1) :
    d1 = d ∧ ftc1 = ftc + 1 ∧ fpc1 = fpc ∧ d.fieldCount ≠ MAX_FIELDS ∧ c ≠ 0 := by
  unfold checkReturn at h
  split at h
  · cases h
  · rename_i hc
    injection h with h1 h2 h3
    exact ⟨h1.symm, h2.symm, h3.symm, fun h => hc (Or.inl h), fun h => hc (Or.inr h)⟩

theorem checkReturn_ret {d d1 : USER_DATA} {c ftc fpc : Nat}
    (h : checkReturn d c ftc fpc = .ret d1) :
    d1 = d ∧ (d.fieldCount = MAX_FIELDS ∨ c = 0) := by
  unfold checkReturn at h
  split at h
  · rename_i hc
    injection h with h1
    exact ⟨h1.symm, hc⟩
  · cases h

theorem checkNumeric_next {d d1 : USER_DATA} {c ftc fpc ftc1 fpc1 : Nat} (hftc : 0 < ftc)
    (h : checkNumeric d c ftc fpc = .ok (.next d1 ftc1 fpc1)) :
    ftc1 = ftc + 1 ∧ StepKind d ftc fpc d1 fpc1 := by
  unfold checkNumeric at h
  split at h
  · split at h
    · cases h
    · split at h
      · cases h
      · rename_i d2 hs
        injection h with h
        injection h with h1 h2 h3
        subst h1 h2 h3
        exact ⟨rfl, .start 110 _ hftc (Or.inr rfl) hs⟩
    · injection h with h
      obtain ⟨h1, h2, h3, -, -⟩ := checkReturn_next h
      subst h1 h2 h3
      exact ⟨rfl, .same⟩
  · injection h with h
    obtain ⟨h1, h2, h3, -, -⟩ := checkReturn_next h
    subst h1 h2 h3
    exact ⟨rfl, .same⟩

theorem checkNumeric_ret {d d1 : USER_DATA} {c ftc fpc : Nat}
    (h : checkNumeric d c ftc fpc = .ok (.ret d1)) :
    d1 = d ∧ (d.fieldCount = MAX_FIELDS ∨ c = 0) := by
  unfold checkNumeric at h
  split at h
  · split at h
    · cases h
    · split at h <;> cases h
    · injection h with h
      exact checkReturn_ret h
  · injection h with h
    exact checkReturn_ret h

theorem checkAlpha_next {d d1 : USER_DATA} {c ftc fpc ftc1 fpc1 : Nat} (hftc : 0 < ftc)
    (h : checkAlpha d c ftc fpc = .ok (.next d1 ftc1 fpc1)) :
    ftc1 = ftc + 1 ∧ StepKind d ftc fpc d1 fpc1 := by
  unfold checkAlpha at h
  split at h
  · split at h
    · cases h
    · split at h
      · cases h
      · rename_i d2 hs
        injection h with h
        injection h with h1 h2 h3
        subst h1 h2 h3
        exact ⟨rfl, .start 97 _ hftc (Or.inl rfl) hs⟩
    · exact checkNumeric_next hftc h
  · exact checkNumeric_next hftc h

theorem checkAlpha_ret {d d1 : USER_DATA} {c ftc fpc : Nat}
    (h : checkAlpha d c ftc fpc = .ok (.ret d1)) :
    d1 = d ∧ (d.fieldCount = MAX_FIELDS ∨ c = 0) := by
  unfold checkAlpha at h
  split at h
  · split at h
    · cases h
    · split at h <;> cases h
    · exact checkNumeric_ret h
  · exact checkNumeric_ret h

theorem checkInitial_next {d d1 : USER_DATA} {c ftc fpc ftc1 fpc1 : Nat} (hftc : ftc = 0)
    (h : checkInitial d c ftc fpc = .ok (.next d1 ftc1 fpc1)) :
    ftc1 = ftc + 1 ∧ StepKind d ftc fpc d1 fpc1 := by
  unfold checkInitial at h
  by_cases ha : isAlpha c = true
  · have hd := isAlpha_not_isDigit ha
    simp only [ha, hd, if_true] at h
    cases hi : initField d 97 ftc fpc with
    | error e => simp [hi] at h
    | ok d2 =>
      simp only [hi, Bool.false_eq_true, if_false] at h
      injection h with h
      injection h with h1 h2 h3
      subst h1 h2 h3
      exact ⟨rfl, .init 97 _ hftc (Or.inl rfl) hi⟩
  · simp only [ha, Bool.false_eq_true, if_false] at h
    split at h
    · split at h
      · cases h
      · rename_i d2 hi
        injection h with h
        injection h with h1 h2 h3
        subst h1 h2 h3
        exact ⟨rfl, .init 110 _ hftc (Or.inr rfl) hi⟩
    · injection h with h
      injection h with h1 h2 h3
      subst h1 h2 h3
      exact ⟨rfl, .same⟩

theorem checkInitial_not_ret {d d1 : USER_DATA} {c ftc fpc : Nat} :
    checkInitial d c ftc fpc ≠ .ok (.ret d1) := by
  intro h
  unfold checkInitial at h
  split at h
  · cases h
  · split at h
    · split at h <;> cases h
    · cases h

theorem parseStep_next {d d1 : USER_DATA} {ftc fpc ftc1 fpc1 : Nat}
    (h : parseStep d ftc fpc = .ok (.next d1 ftc1 fpc1)) :
    ftc < d.buffer.length ∧ ftc1 = ftc + 1 ∧ StepKind d ftc fpc d1 fpc1 := by
  unfold parseStep at h
  split at h
  · cases h
  · rename_i c hc
    have hlt : ftc < d.buffer.length := by
      by_contra hge
      rw [List.getElem?_eq_none (by omega)] at hc
      cases hc
    split at h
    · rename_i h0
      exact ⟨hlt, checkInitial_next h0 h⟩
    · rename_i h0
      exact ⟨hlt, checkAlpha_next (Nat.pos_of_ne_zero h0) h⟩

theorem parseStep_ret {d d1 : USER_DATA} {ftc fpc : Nat}
    (h : parseStep d ftc fpc = .ok (.ret d1)) :
    d1 = d ∧ 0 < ftc ∧ ∃ c, d.buffer[ftc]? = some c ∧ (d.fieldCount = MAX_FIELDS ∨ c = 0) := by
  unfold parseStep at h
  split at h
  · cases h
  · rename_i c hc
    split at h
    · exact absurd h checkInitial_not_ret
    · rename_i h0
      obtain ⟨h1, h2⟩ := checkAlpha_ret h
      exact ⟨h1, Nat.pos_of_ne_zero h0, c, hc, h2⟩

theorem StepKind.buffer_length {d d1 : USER_DATA} {ftc fpc fpc1 : Nat}
    (h : StepKind d ftc fpc d1 fpc1) : d1.buffer.length = d.buffer.length := by
  cases h with
  | same => rfl
  | init t d1 h0 ht hi =>
    obtain ⟨-, -, rfl⟩ := initField_ok hi
    rfl
  | start t d1 h0 ht hs =>
    obtain ⟨-, -, -, rfl⟩ := startField_ok hs
    simp

/-- A run of the loop that returns does so whatever larger count of passes is
allowed, and a count that covers the rest of the buffer is large enough. -/
theorem parseLoop_fuel : ∀ (n : Nat) (d : USER_DATA) (ftc fpc : Nat) (r : USER_DATA),
    parseLoop n d ftc fpc = .ok r →
    ∀ m, d.buffer.length < ftc + m → parseLoop m d ftc fpc = .ok r := by
  intro n
  induction n with
  | zero => intro d ftc fpc r h; cases h
  | succ n ih =>
    intro d ftc fpc r h m hm
    unfold parseLoop at h
    cases hs : parseStep d ftc fpc with
    | error e => simp [hs] at h
    | ok k =>
      cases k with
      | ret d1 =>
        simp only [hs] at h
        obtain ⟨-, -, c, hc, -⟩ := parseStep_ret hs
        have hlt : ftc < d.buffer.length := by
          by_contra hge
          rw [List.getElem?_eq_none (by omega)] at hc
          cases hc
        obtain ⟨m1, rfl⟩ : ∃ m1, m = m1 + 1 := ⟨m - 1, by omega⟩
        unfold parseLoop
        simp only [hs]
        exact h
      | next d1 ftc1 fpc1 =>
        simp only [hs] at h
        obtain ⟨hlt, rfl, hk⟩ := parseStep_next hs
        obtain ⟨m1, rfl⟩ : ∃ m1, m = m1 + 1 := ⟨m - 1, by omega⟩
        unfold parseLoop
        simp only [hs]
        exact ih d1 (ftc + 1) fpc1 r h m1 (by rw [hk.buffer_length]; omega)

/-- An invariant of the passes of `parseField` holds of the structure it returns,
together with the condition under which the `return` is taken. -/
theorem parseLoop_invariant (P : USER_DATA → Nat → Nat → Prop)
    (hstep : ∀ d ftc fpc d1 fpc1, P d ftc fpc → ftc < d.buffer.length →
      StepKind d ftc fpc d1 fpc1 → P d1 (ftc + 1) fpc1) :
    ∀ (n : Nat) (d : USER_DATA) (ftc fpc : Nat) (r : USER_DATA), P d ftc fpc →
      parseLoop n d ftc fpc = .ok r →
      ∃ ftc1 fpc1, P r ftc1 fpc1 ∧ 0 < ftc1 ∧
        ∃ c, r.buffer[ftc1]? = some c ∧ (r.fieldCount = MAX_FIELDS ∨ c = 0) := by
  intro n
  induction n with
  | zero => intro d ftc fpc r _ h; cases h
  | succ n ih =>
    intro d ftc fpc r hP h
    unfold parseLoop at h
    cases hs : parseStep d ftc fpc with
    | error e => simp [hs] at h
    | ok k =>
      cases k with
      | ret d1 =>
        simp only [hs] at h
        obtain ⟨rfl, h0, c, hc, hr⟩ := parseStep_ret hs
        injection h with h
        subst h
        exact ⟨ftc, fpc, hP, h0, c, hc, hr⟩
      | next d1 ftc1 fpc1 =>
        simp only [hs] at h
        obtain ⟨hlt, rfl, hk⟩ := parseStep_next hs
        exact ih d1 (ftc + 1) fpc1 r (hstep d ftc fpc d1 fpc1 hP hlt hk) h

theorem InClass.ne_zero {t c : Nat} (h : InClass t c) : c ≠ 0 := by
  rcases h with ⟨-, h⟩ | ⟨-, h⟩
  · intro h0; subst h0; simp [isAlpha] at h
  · intro h0; subst h0; simp [isDigit] at h

theorem step_inside {d : USER_DATA} {ftc fpc c c0 t : Nat} (hftc : 0 < ftc) (hfpc : 0 < fpc)
    (hc : d.buffer[ftc]? = some c) (hc0 : d.buffer[ftc - 1]? = some c0)
    (ht : d.fieldType[fpc - 1]? = some t) (h1 : InClass t c) (h2 : InClass t c0) :
    parseStep d ftc fpc = .ok (checkReturn d c ftc fpc) := by
  obtain ⟨k, rfl⟩ : ∃ k, fpc = k + 1 := ⟨fpc - 1, by omega⟩
  simp only [Nat.add_sub_cancel] at ht
  have hne : ftc ≠ 0 := by omega
  rcases h1 with ⟨rfl, ha⟩ | ⟨rfl, hd⟩
  · rcases h2 with ⟨-, ha0⟩ | ⟨h, -⟩
    · simp [parseStep, hc, hne, checkAlpha, ha, boundary, hc0, ha0, prevFieldType, ht,
        checkNumeric, isAlpha_not_isDigit ha]
    · cases h
  · rcases h2 with ⟨h, -⟩ | ⟨-, hd0⟩
    · cases h
    · have hna : isAlpha c = false := by
        cases ha : isAlpha c
        · rfl
        · rw [isAlpha_not_isDigit ha] at hd; cases hd
      simp [parseStep, hc, hne, checkAlpha, hna, boundary, hc0, hd0, prevFieldType, ht,
        checkNumeric, hd]

theorem step_other {d : USER_DATA} {ftc fpc c : Nat} (hftc : 0 < ftc)
    (hc : d.buffer[ftc]? = some c) (ha : isAlpha c = false) (hd : isDigit c = false) :
    parseStep d ftc fpc = .ok (checkReturn d c ftc fpc) := by
  have hne : ftc ≠ 0 := by omega
  simp [parseStep, hc, hne, checkAlpha, ha, checkNumeric, hd]

theorem step_start {d : USER_DATA} {ftc fpc c c0 t : Nat} (hftc : 0 < ftc)
    (hc : d.buffer[ftc]? = some c) (hc0 : d.buffer[ftc - 1]? = some c0)
    (ha0 : isAlpha c0 = false) (hd0 : isDigit c0 = false) (h1 : InClass t c)
    (hl1 : fpc < d.fieldType.length) (hl2 : fpc < d.fieldPosition.length) :
    parseStep d ftc fpc = .ok (.next
      { d with
        fieldType := d.fieldType.set fpc t
        fieldPosition := d.fieldPosition.set fpc (ftc % 256)
        buffer := d.buffer.set (ftc - 1) 0
        fieldCount := (fpc + 1) % 256 } (ftc + 1) (fpc + 1)) := by
  have hne : ftc ≠ 0 := by omega
  have hlt : ftc - 1 < d.buffer.length := by
    by_contra hge
    rw [List.getElem?_eq_none (by omega)] at hc0
    cases hc0
  rcases h1 with ⟨rfl, ha⟩ | ⟨rfl, hd⟩
  · simp [parseStep, hc, hne, checkAlpha, ha, boundary, hc0, ha0, startField, hl1, hl2, hlt]
  · have hna : isAlpha c = false := by
      cases ha : isAlpha c
      · rfl
      · rw [isAlpha_not_isDigit ha] at hd; cases hd
    simp [parseStep, hc, hne, checkAlpha, hna, checkNumeric, hd, boundary, hc0, hd0, startField,
      hl1, hl2, hlt]

theorem step_first {d : USER_DATA} {c t : Nat} (hc : d.buffer[0]? = some c) (h1 : InClass t c)
    (hl1 : 0 < d.fieldType.length) (hl2 : 0 < d.fieldPosition.length) :
    parseStep d 0 0 = .ok (.next
      { d with
        fieldType := d.fieldType.set 0 t
        fieldPosition := d.fieldPosition.set 0 0
        fieldCount := 1 } 1 1) := by
  rcases h1 with ⟨rfl, ha⟩ | ⟨rfl, hd⟩
  · simp [parseStep, hc, checkInitial, ha, isAlpha_not_isDigit ha, initField, hl1, hl2]
  · have hna : isAlpha c = false := by
      cases ha : isAlpha c
      · rfl
      · rw [isAlpha_not_isDigit ha] at hd; cases hd
    simp [parseStep, hc, checkInitial, hna, hd, initField, hl1, hl2]

theorem run_of_ret {d r : USER_DATA} {ftc fpc : Nat} (h : parseStep d ftc fpc = .ok (.ret r)) :
    ∃ n, parseLoop n d ftc fpc = .ok r :=
  ⟨1, by simp [parseLoop, h]⟩

theorem run_of_next {d d1 r : USER_DATA} {ftc fpc ftc1 fpc1 : Nat}
    (h : parseStep d ftc fpc = .ok (.next d1 ftc1 fpc1))
    (hr : ∃ n, parseLoop n d1 ftc1 fpc1 = .ok r) : ∃ n, parseLoop n d ftc fpc = .ok r := by
  obtain ⟨n, hn⟩ := hr
  exact ⟨n + 1, by simp [parseLoop, h, hn]⟩

theorem isWord_inClass {w : List Nat} (hw : IsWord w) : ∀ c ∈ w, InClass (wordType w) c := by
  obtain ⟨hne, h⟩ := hw
  cases w with
  | nil => exact absurd rfl hne
  | cons c0 w =>
    intro c hc
    rcases h with h | h
    · left
      exact ⟨by simp [wordType, h c0 (List.mem_cons_self _ _)], h c hc⟩
    · right
      have hna : isAlpha c0 = false := by
        cases ha : isAlpha c0
        · rfl
        · have := isAlpha_not_isDigit ha
          rw [h c0 (List.mem_cons_self _ _)] at this
          cases this
      exact ⟨by simp [wordType, hna], h c hc⟩

theorem getElem?_length_append {α : Type} (pre : List α) (x : α) (post : List α) :
    (pre ++ x :: post)[pre.length]? = some x := by
  rw [List.getElem?_append_right (le_refl _)]
  simp

theorem scan_word : ∀ (w pre post : List Nat) (d : USER_DATA) (fpc t c0 : Nat) (r : USER_DATA),
    d.buffer = pre ++ (w ++ post) → 0 < pre.length → 0 < fpc →
    d.buffer[pre.length - 1]? = some c0 → InClass t c0 → (∀ c ∈ w, InClass t c) →
    d.fieldType[fpc - 1]? = some t → d.fieldCount ≠ MAX_FIELDS →
    (∃ n, parseLoop n d (pre.length + w.length) fpc = .ok r) →
    ∃ n, parseLoop n d pre.length fpc = .ok r := by
  intro w
  induction w with
  | nil => intro pre post d fpc t c0 r _ _ _ _ _ _ _ _ h; simpa using h
  | cons c w ih =>
    intro pre post d fpc t c0 r hbuf hpre hfpc hc0 ht0 hw ht hcnt h
    have hc : d.buffer[pre.length]? = some c := by
      rw [hbuf]; exact getElem?_length_append _ _ _
    have hcl : InClass t c := hw c (List.mem_cons_self _ _)
    have hstep := step_inside hpre hfpc hc hc0 ht hcl ht0
    have hcr : checkReturn d c pre.length fpc = .next d (pre.length + 1) fpc := by
      simp [checkReturn, hcnt, hcl.ne_zero]
    rw [hcr] at hstep
    refine run_of_next hstep ?_
    have := ih (pre ++ [c]) post d fpc t c r (by rw [hbuf]; simp) (by simp) hfpc
      (by simpa using hc) hcl (fun x hx => hw x (List.mem_cons_of_mem _ hx)) ht hcnt
      (by
        obtain ⟨n, hn⟩ := h
        refine ⟨n, ?_⟩
        rw [← hn]
        congr 1
        simp only [List.length_append, List.length_cons, List.length_nil]
        omega)
    simpa using this

theorem scan_last : ∀ (w pre tail : List Nat) (d : USER_DATA) (fpc t c0 : Nat),
    d.buffer = pre ++ (w ++ 0 :: tail) → 0 < pre.length → 0 < fpc →
    d.buffer[pre.length - 1]? = some c0 → InClass t c0 → (∀ c ∈ w, InClass t c) →
    d.fieldType[fpc - 1]? = some t →
    ∃ n, parseLoop n d pre.length fpc = .ok d := by
  intro w
  induction w with
  | nil =>
    intro pre tail d fpc t c0 hbuf hpre _ _ _ _ _
    have hc : d.buffer[pre.length]? = some 0 := by
      rw [hbuf]; exact getElem?_length_append _ _ _
    have hstep : parseStep d pre.length fpc = .ok (checkReturn d 0 pre.length fpc) :=
      step_other hpre hc (by simp [isAlpha]) (by simp [isDigit])
    have hcr : checkReturn d 0 pre.length fpc = .ret d := by simp [checkReturn]
    rw [hcr] at hstep
    exact run_of_ret hstep
  | cons c w ih =>
    intro pre tail d fpc t c0 hbuf hpre hfpc hc0 ht0 hw ht
    have hc : d.buffer[pre.length]? = some c := by
      rw [hbuf]; exact getElem?_length_append _ _ _
    have hcl : InClass t c := hw c (List.mem_cons_self _ _)
    have hstep := step_inside hpre hfpc hc hc0 ht hcl ht0
    by_cases hcnt : d.fieldCount = MAX_FIELDS
    · have hcr : checkReturn d c pre.length fpc = .ret d := by simp [checkReturn, hcnt]
      rw [hcr] at hstep
      exact run_of_ret hstep
    · have hcr : checkReturn d c pre.length fpc = .next d (pre.length + 1) fpc := by
        simp [checkReturn, hcnt, hcl.ne_zero]
      rw [hcr] at hstep
      refine run_of_next hstep ?_
      have := ih (pre ++ [c]) tail d fpc t c (by rw [hbuf]; simp) (by simp) hfpc
        (by simpa using hc) hcl (fun x hx => hw x (List.mem_cons_of_mem _ hx)) ht
      simpa using this

theorem joinLine_cons (c : Nat) (w : List Nat) (rest : List (Nat × List Nat)) :
    joinLine (c :: w) rest = c :: joinLine w rest := by
  cases rest with
  | nil => rfl
  | cons p rest => rfl

theorem set_length_append {α : Type} (pre : List α) (x v : α) (post : List α) :
    (pre ++ x :: post).set pre.length v = pre ++ v :: post := by
  induction pre with
  | nil => rfl
  | cons a pre ih => simp [ih]

theorem getElem?_length_append_succ {α : Type} (pre : List α) (x y : α) (post : List α) :
    (pre ++ x :: y :: post)[pre.length + 1]? = some y := by
  have h := getElem?_length_append (pre ++ [x]) y post
  rw [List.append_assoc, List.singleton_append, List.length_append, List.length_singleton] at h
  exact h

theorem run_words : ∀ (rest : List (Nat × List Nat)) (c0 : Nat) (w pre tail : List Nat)
    (d : USER_DATA) (fpc : Nat),
    d.buffer = pre ++ (joinLine (c0 :: w) rest ++ 0 :: tail) →
    IsWord (c0 :: w) → (∀ p ∈ rest, IsSeparator p.1 ∧ IsWord p.2) →
    0 < fpc → d.fieldType[fpc - 1]? = some (wordType (c0 :: w)) → d.fieldCount = fpc →
    fpc + rest.length ≤ MAX_FIELDS → d.fieldType.length = MAX_FIELDS →
    d.fieldPosition.length = MAX_FIELDS → d.buffer.length ≤ 256 →
    ∃ n, parseLoop n d (pre.length + 1) fpc = .ok
      { buffer := pre ++ (nulJoin (c0 :: w) rest ++ 0 :: tail)
        fieldCount := fpc + rest.length
        fieldPosition := setFrom d.fieldPosition fpc (starts pre.length (c0 :: w) rest)
        fieldType := setFrom d.fieldType fpc (rest.map fun p => wordType p.2) } := by
  intro rest
  induction rest with
  | nil =>
    intro c0 w pre tail d fpc hbuf hw _ hfpc ht hcnt _ _ _ _
    have hcl := isWord_inClass hw
    have h := scan_last w (pre ++ [c0]) tail d fpc (wordType (c0 :: w)) c0
      (by rw [hbuf]; simp [joinLine]) (by simp) hfpc
      (by rw [hbuf]; simpa using getElem?_length_append pre c0 _)
      (hcl c0 (List.mem_cons_self _ _)) (fun c hc => hcl c (List.mem_cons_of_mem _ hc)) ht
    have hd : d = { buffer := pre ++ (nulJoin (c0 :: w) [] ++ 0 :: tail)
                    fieldCount := fpc + ([] : List (Nat × List Nat)).length
                    fieldPosition := setFrom d.fieldPosition fpc (starts pre.length (c0 :: w) [])
                    fieldType := setFrom d.fieldType fpc
                      (([] : List (Nat × List Nat)).map fun p => wordType p.2) } := by
      obtain ⟨b, fc, fp, ft⟩ := d
      simp only [joinLine] at hbuf hcnt
      subst hcnt
      simp [nulJoin, setFrom, starts, hbuf]
    rw [← hd]
    simpa using h
  | cons p rest ih =>
    obtain ⟨s, w2⟩ := p
    intro c0 w pre tail d fpc hbuf hw hrest hfpc ht hcnt hn hl1 hl2 hl3
    obtain ⟨hs, hw2⟩ := hrest (s, w2) (List.mem_cons_self _ _)
    obtain ⟨hsa, hsd, hs0⟩ := hs
    cases w2 with
    | nil => exact absurd rfl hw2.1
    | cons c2 w2 =>
      have hcl := isWord_inClass hw
      have hcl2 := isWord_inClass hw2
      simp only [List.length_cons] at hn
      have hcnt5 : d.fieldCount ≠ MAX_FIELDS := by omega
      have hbuf1 : d.buffer = (pre ++ c0 :: w) ++ s :: c2 :: (joinLine w2 rest ++ 0 :: tail) := by
        rw [hbuf]; simp [joinLine, joinLine_cons]
      have hlen : (pre ++ c0 :: w).length + 1 < d.buffer.length := by
        rw [hbuf1]; simp; omega
      -- the rest of the current word
      have hidx : (pre ++ [c0]).length + w.length = (pre ++ c0 :: w).length := by
        simp; omega
      suffices hgoal : ∃ n, parseLoop n d (pre ++ c0 :: w).length fpc = .ok
          { buffer := pre ++ (nulJoin (c0 :: w) ((s, c2 :: w2) :: rest) ++ 0 :: tail)
            fieldCount := fpc + ((s, c2 :: w2) :: rest).length
            fieldPosition :=
              setFrom d.fieldPosition fpc (starts pre.length (c0 :: w) ((s, c2 :: w2) :: rest))
            fieldType := setFrom d.fieldType fpc
              (((s, c2 :: w2) :: rest).map fun p => wordType p.2) } by
        rw [← hidx] at hgoal
        have := scan_word w (pre ++ [c0]) (s :: c2 :: (joinLine w2 rest ++ 0 :: tail)) d fpc
          (wordType (c0 :: w)) c0 _ (by rw [hbuf1]; simp) (by simp) hfpc
          (by rw [hbuf]; simpa using getElem?_length_append pre c0 _)
          (hcl c0 (List.mem_cons_self _ _)) (fun c hc => hcl c (List.mem_cons_of_mem _ hc)) ht
          hcnt5 hgoal
        simpa using this
      -- the separator
      have hcs : d.buffer[(pre ++ c0 :: w).length]? = some s := by
        rw [hbuf1]; exact getElem?_length_append _ _ _
      have hstep1 : parseStep d (pre ++ c0 :: w).length fpc =
          .ok (checkReturn d s (pre ++ c0 :: w).length fpc) :=
        step_other (by simp) hcs hsa hsd
      have hcr : checkReturn d s (pre ++ c0 :: w).length fpc =
          .next d ((pre ++ c0 :: w).length + 1) fpc := by
        simp [checkReturn, hcnt5, hs0]
      rw [hcr] at hstep1
      refine run_of_next hstep1 ?_
      -- the first character of the next word
      have hc2 : d.buffer[(pre ++ c0 :: w).length + 1]? = some c2 := by
        rw [hbuf1]
        exact getElem?_length_append_succ _ _ _ _
      have hstep2 := @step_start d ((pre ++ c0 :: w).length + 1) fpc c2 s (wordType (c2 :: w2))
        (Nat.succ_pos _) hc2 (by simpa using hcs) hsa hsd
        (hcl2 c2 (List.mem_cons_self _ _)) (by omega) (by omega)
      refine run_of_next hstep2 ?_
      have hmod : ((pre ++ c0 :: w).length + 1) % 256 = (pre ++ c0 :: w).length + 1 :=
        Nat.mod_eq_of_lt (by omega)
      have hmod2 : (fpc + 1) % 256 = fpc + 1 := Nat.mod_eq_of_lt (by simp [MAX_FIELDS] at hn; omega)
      have := ih c2 w2 ((pre ++ c0 :: w) ++ [0]) tail
        { d with
          fieldType := d.fieldType.set fpc (wordType (c2 :: w2))
          fieldPosition := d.fieldPosition.set fpc (((pre ++ c0 :: w).length + 1) % 256)
          buffer := d.buffer.set ((pre ++ c0 :: w).length + 1 - 1) 0
          fieldCount := (fpc + 1) % 256 } (fpc + 1)
        (by
          simp only [Nat.add_sub_cancel]
          rw [hbuf1, set_length_append]
          simp [joinLine_cons])
        hw2 (fun p hp => hrest p (List.mem_cons_of_mem _ hp)) (Nat.succ_pos _)
        (by simp [List.getElem?_set, hl1]; omega) hmod2 (by omega) (by simpa using hl1)
        (by simpa using hl2) (by simpa using hl3)
      obtain ⟨n, hn1⟩ := this
      refine ⟨n, ?_⟩
      have hidx2 : ((pre ++ c0 :: w) ++ [0]).length + 1 = (pre ++ c0 :: w).length + 1 + 1 := by
        simp only [List.length_append, List.length_singleton]
      rw [hidx2] at hn1
      rw [hn1]
      congr 1
      simp only [USER_DATA.mk.injEq]
      refine ⟨?_, ?_, ?_, ?_⟩
      · simp [nulJoin, joinLine_cons]
      · simp; omega
      · simp only [hmod, starts, setFrom]
        congr 2 <;> simp
        omega
      · simp [setFrom]

/-- What `parseField` returns on a line of words with single separators. -/
theorem parseField_joinLine (d : USER_DATA) (w0 : List Nat) (rest : List (Nat × List Nat))
    (tail : List Nat) (hbuf : d.buffer = joinLine w0 rest ++ 0 :: tail) (hw0 : IsWord w0)
    (hrest : ∀ p ∈ rest, IsSeparator p.1 ∧ IsWord p.2) (hn : rest.length + 1 ≤ MAX_FIELDS)
    (hl1 : d.fieldType.length = MAX_FIELDS) (hl2 : d.fieldPosition.length = MAX_FIELDS)
    (hl3 : d.buffer.length ≤ 256) :
    parseField d = .ok
      { buffer := nulJoin w0 rest ++ 0 :: tail
        fieldCount := rest.length + 1
        fieldPosition := setFrom d.fieldPosition 0 (0 :: starts 0 w0 rest)
        fieldType := setFrom d.fieldType 0 (wordType w0 :: rest.map fun p => wordType p.2) } := by
  cases w0 with
  | nil => exact absurd rfl hw0.1
  | cons c0 w =>
    have hcl := isWord_inClass hw0
    have hc : ({ d with fieldCount := 0 } : USER_DATA).buffer[0]? = some c0 := by
      simp [hbuf, joinLine_cons]
    have hstep := step_first (d := { d with fieldCount := 0 }) hc
      (hcl c0 (List.mem_cons_self _ _)) (by simp [hl1, MAX_FIELDS]) (by simp [hl2, MAX_FIELDS])
    have hrun := run_words rest c0 w [] tail
      { d with
        fieldType := d.fieldType.set 0 (wordType (c0 :: w))
        fieldPosition := d.fieldPosition.set 0 0
        fieldCount := 1 } 1 (by simp [hbuf]) hw0 hrest (by omega)
      (by simp [hl1, MAX_FIELDS]) rfl (by omega) (by simpa using hl1) (by simpa using hl2)
      (by simpa using hl3)
    obtain ⟨n, hn1⟩ := run_of_next hstep hrun
    unfold parseField
    rw [parseLoop_fuel n _ 0 0 _ hn1 (d.buffer.length + 1) (by simp)]
    congr 1
    simp only [USER_DATA.mk.injEq]
    refine ⟨by simp, by omega, ?_, ?_⟩
    · simp [setFrom]
    · simp [setFrom]

theorem setFrom_length (vs : List Nat) : ∀ (l : List Nat) (k : Nat),
    (setFrom l k vs).length = l.length := by
  induction vs with
  | nil => intro l k; rfl
  | cons v vs ih => intro l k; simp [setFrom, ih]

theorem setFrom_getElem?_lt (vs : List Nat) : ∀ (l : List Nat) (k i : Nat), i < k →
    (setFrom l k vs)[i]? = l[i]? := by
  induction vs with
  | nil => intro l k i _; rfl
  | cons v vs ih =>
    intro l k i hi
    simp only [setFrom]
    rw [ih _ _ _ (by omega), List.getElem?_set_ne (by omega)]

theorem setFrom_getElem? (vs : List Nat) : ∀ (l : List Nat) (k j : Nat),
    k + vs.length ≤ l.length → j < vs.length → (setFrom l k vs)[k + j]? = vs[j]? := by
  induction vs with
  | nil => intro l k j _ hj; cases hj
  | cons v vs ih =>
    intro l k j hk hj
    simp only [setFrom]
    cases j with
    | zero =>
      simp only [List.length_cons] at hk
      simp only [Nat.add_zero, List.getElem?_cons_zero]
      rw [setFrom_getElem?_lt vs (l.set k v) (k + 1) k (Nat.lt_succ_self k),
        List.getElem?_set_self (by omega)]
    | succ j =>
      simp only [List.length_cons] at hk hj
      have := ih (l.set k v) (k + 1) j (by simp; omega) (by omega)
      rw [show k + (j + 1) = k + 1 + j by omega, this]
      simp

theorem strFrom_append (w : List Nat) (post : List Nat) (hw : ∀ c ∈ w, c ≠ 0) :
    strFrom (w ++ 0 :: post) = some w := by
  induction w with
  | nil => simp [strFrom]
  | cons c w ih =>
    have hc : c ≠ 0 := hw c (List.mem_cons_self _ _)
    simp [strFrom, hc, ih (fun x hx => hw x (List.mem_cons_of_mem _ hx))]

theorem cString_append (pre w post : List Nat) (hw : ∀ c ∈ w, c ≠ 0) :
    cString (pre ++ (w ++ 0 :: post)) pre.length = some w := by
  unfold cString
  rw [List.drop_left]
  exact strFrom_append w post hw

theorem isWord_ne_zero {w : List Nat} (hw : IsWord w) : ∀ c ∈ w, c ≠ 0 :=
  fun c hc => (isWord_inClass hw c hc).ne_zero

/-- The strings at the offsets of the words in the buffer that `parseField` leaves. -/
theorem cString_nulJoin : ∀ (rest : List (Nat × List Nat)) (w pre tail : List Nat) (i : Nat)
    (x : List Nat), IsWord w → (∀ p ∈ rest, IsWord p.2) →
    (w :: rest.map Prod.snd)[i]? = some x →
    ∃ p, (pre.length :: starts pre.length w rest)[i]? = some p ∧
      cString (pre ++ (nulJoin w rest ++ 0 :: tail)) p = some x := by
  intro rest
  induction rest with
  | nil =>
    intro w pre tail i x hw _ hi
    cases i with
    | zero =>
      simp only [List.map_nil, List.getElem?_cons_zero, Option.some.injEq] at hi
      subst hi
      exact ⟨pre.length, rfl, cString_append pre w tail (isWord_ne_zero hw)⟩
    | succ i => simp at hi
  | cons q rest ih =>
    obtain ⟨s, w2⟩ := q
    intro w pre tail i x hw hrest hi
    cases i with
    | zero =>
      simp only [List.getElem?_cons_zero, Option.some.injEq] at hi
      subst hi
      refine ⟨pre.length, rfl, ?_⟩
      have := cString_append pre w (nulJoin w2 rest ++ 0 :: tail) (isWord_ne_zero hw)
      simpa [nulJoin] using this
    | succ i =>
      simp only [List.map_cons, List.getElem?_cons_succ] at hi
      obtain ⟨p, hp, hs⟩ := ih w2 (pre ++ (w ++ [0])) tail i x
        (hrest (s, w2) (List.mem_cons_self _ _))
        (fun p hp => hrest p (List.mem_cons_of_mem _ hp)) hi
      refine ⟨p, ?_, ?_⟩
      · simp only [starts, List.getElem?_cons_succ]
        simpa [Nat.add_assoc] using hp
      · simpa [nulJoin] using hs

/-! ## Facts about the field accessors -/

theorem strFrom_some : ∀ (l s : List Nat), strFrom l = some s →
    (∀ c ∈ s, c ≠ 0) ∧ ∃ post, l = s ++ 0 :: post := by
  intro l
  induction l with
  | nil => intro s h; cases h
  | cons c l ih =>
    intro s h
    unfold strFrom at h
    split at h
    · rename_i hc
      injection h with h
      subst h hc
      exact ⟨by simp, l, rfl⟩
    · rename_i hc
      cases hl : strFrom l with
      | none => simp [hl] at h
      | some s1 =>
        simp only [hl, Option.some.injEq] at h
        subst h
        obtain ⟨h1, post, h2⟩ := ih s1 hl
        refine ⟨?_, post, by rw [h2]; rfl⟩
        intro x hx
        rcases List.mem_cons.mp hx with rfl | hx
        · exact hc
        · exact h1 x hx

theorem cString_some {buf s : List Nat} {p : Nat} (h : cString buf p = some s) :
    (∀ c ∈ s, c ≠ 0) ∧ p + s.length < buf.length ∧
      ∀ k, k < s.length → buf[k + p]? = s[k]? := by
  obtain ⟨h1, post, h2⟩ := strFrom_some _ _ h
  have hlen : (buf.drop p).length = (s ++ 0 :: post).length := by rw [h2]
  simp only [List.length_drop, List.length_append, List.length_cons] at hlen
  refine ⟨h1, by omega, ?_⟩
  intro k hk
  have : (buf.drop p)[k]? = (s ++ 0 :: post)[k]? := by rw [h2]
  rw [List.getElem?_drop, List.getElem?_append_left hk] at this
  rw [← this]
  congr 1
  omega

theorem copyField_eq (pos : Nat) : ∀ (l s : List Nat) (str : Nat), strFrom l = some s →
    str + s.length < MAX_CHARS + 1 → copyField pos l str = .ok s := by
  intro l
  induction l with
  | nil => intro s str h; cases h
  | cons c l ih =>
    intro s str h hlen
    unfold strFrom at h
    unfold copyField
    split at h
    · rename_i hc
      injection h with h
      subst h hc
      have : str < MAX_CHARS + 1 := by simpa using hlen
      simp [this]
    · rename_i hc
      cases hl : strFrom l with
      | none => simp [hl] at h
      | some s1 =>
        simp only [hl, Option.some.injEq] at h
        subst h
        simp only [List.length_cons] at hlen
        have h1 : str < MAX_CHARS + 1 := by omega
        simp [h1, hc, ih s1 (str + 1) hl (by omega)]

theorem getFieldString_eq {d : USER_DATA} {i t p : Nat} {s : List Nat} (hi : i ≤ MAX_FIELDS)
    (ht : d.fieldType[i]? = some t) (hta : t = 97 ∨ t = 110)
    (hp : d.fieldPosition[i]? = some p) (hs : cString d.buffer p = some s)
    (hlen : s.length ≤ MAX_CHARS) : getFieldString d i = .ok s := by
  unfold getFieldString
  simp only [hi, if_true, ht, hta, hp]
  exact copyField_eq p _ s 0 hs (by omega)

theorem integerLoop_sum (d : USER_DATA) (i p : Nat) (hp : d.fieldPosition[i]? = some p) :
    ∀ (s : List Nat) (cu FI : Nat), (∀ k, k < s.length → d.buffer[cu + k + p]? = s[k]?) →
      (∀ c ∈ s, 48 ≤ c) → FI + decimalSum s < 2 ^ 32 →
      integerLoop d i (cu + s.length) s.length cu ((s.length : Int) - 1) FI =
        .ok (FI + decimalSum s) := by
  intro s
  induction s with
  | nil => intro cu FI _ _ _; simp [integerLoop, decimalSum]
  | cons c s ih =>
    intro cu FI hb h48 hv
    have hc : d.buffer[cu + p]? = some c := by simpa using hb 0 (by simp)
    have hc48 : 48 ≤ c := h48 c (List.mem_cons_self _ _)
    simp only [decimalSum] at hv
    have hcast : (FI : Int) + ((c : Int) - 48) * 10 ^ (((c :: s).length : Int) - 1).toNat =
        ((FI + (c - 48) * 10 ^ s.length : Nat) : Int) := by
      have : (((c :: s).length : Int) - 1).toNat = s.length := by simp
      rw [this]
      push_cast [Nat.cast_sub hc48]
      ring
    have hgap : cu + (c :: s).length > cu := by simp
    unfold integerLoop
    simp only [List.length_cons, hgap, if_true, hp, hc]
    simp only [List.length_cons] at hcast
    rw [hcast]
    have hr : (0 : Int) ≤ ((FI + (c - 48) * 10 ^ s.length : Nat) : Int) ∧
        ((FI + (c - 48) * 10 ^ s.length : Nat) : Int) < 2 ^ 32 := by
      constructor
      · exact Int.natCast_nonneg _
      · have : FI + (c - 48) * 10 ^ s.length < 2 ^ 32 := by omega
        exact_mod_cast this
    simp only [hr, and_self, if_true, Int.toNat_ofNat]
    have := ih (cu + 1) (FI + (c - 48) * 10 ^ s.length)
      (fun k hk => by
        have := hb (k + 1) (by simp; omega)
        simp only [List.getElem?_cons_succ] at this
        rw [← this]; congr 1; omega)
      (fun x hx => h48 x (List.mem_cons_of_mem _ hx)) (by omega)
    have hg2 : cu + 1 + s.length > cu := by omega
    rw [show cu + (s.length + 1) = cu + 1 + s.length by omega,
      show (((s.length + 1 : Nat) : Int) - 1 - 1) = (s.length : Int) - 1 by push_cast; omega]
    simp only [hg2, if_true, this]
    simp [decimalSum, Nat.add_assoc]

theorem getFieldInteger_sum {d : USER_DATA} {i t p : Nat} {s : List Nat} (hi : i ≤ MAX_FIELDS)
    (ht : d.fieldType[i]? = some t) (hta : t = 97 ∨ t = 110)
    (hp : d.fieldPosition[i]? = some p) (hs : cString d.buffer p = some s)
    (hlen : s.length ≤ MAX_CHARS) (h48 : ∀ c ∈ s, 48 ≤ c) (hv : decimalSum s < 2 ^ 32) :
    getFieldInteger d i = .ok (decimalSum s) := by
  unfold getFieldInteger
  rw [getFieldString_eq hi ht hta hp hs hlen]
  simp only [hi, if_true]
  have := integerLoop_sum d i p hp s 0 0 (fun k hk => by
    simpa using (cString_some hs).2.2 k hk) h48 (by simpa using hv)
  simpa using this

/-- The field table that `parseField` leaves: the sizes of the arrays are kept,
at most `MAX_FIELDS` fields are counted, and every counted field has a type
letter. -/
theorem parseField_table {d r : USER_DATA} (hwf : d.WF) (h : parseField d = .ok r) :
    r.WF ∧ r.fieldCount ≤ MAX_FIELDS ∧
      ∀ i, i < r.fieldCount → r.fieldType[i]? = some 97 ∨ r.fieldType[i]? = some 110 := by
  have key := parseLoop_invariant
    (fun d _ fpc => d.WF ∧ d.fieldCount = fpc ∧ fpc ≤ MAX_FIELDS ∧
      ∀ i, i < fpc → d.fieldType[i]? = some 97 ∨ d.fieldType[i]? = some 110)
    (by
      intro d ftc fpc d1 fpc1 hP _ hk
      obtain ⟨⟨hb, hp, ht⟩, hc, hle, hty⟩ := hP
      have hnew : ∀ (t : Nat) (l : List Nat), (t = 97 ∨ t = 110) → fpc < d.fieldType.length →
          ∀ i, i < fpc + 1 → (d.fieldType.set fpc t)[i]? = some 97 ∨
            (d.fieldType.set fpc t)[i]? = some 110 := by
        intro t _ ht1 hlt i hi
        by_cases hif : i = fpc
        · subst hif
          rw [List.getElem?_set_self hlt]
          rcases ht1 with rfl | rfl
          · exact Or.inl rfl
          · exact Or.inr rfl
        · rw [List.getElem?_set_ne (fun h => hif h.symm)]
          exact hty i (by omega)
      cases hk with
      | same => exact ⟨⟨hb, hp, ht⟩, hc, hle, hty⟩
      | init t d1 h0 ht1 hi =>
        obtain ⟨h1, h2, rfl⟩ := initField_ok hi
        have h5 : fpc < MAX_FIELDS := by rw [← ht]; exact h1
        refine ⟨⟨hb, by simpa using hp, by simpa using ht⟩, ?_, h5, hnew t [] ht1 h1⟩
        exact Nat.mod_eq_of_lt (by simp only [MAX_FIELDS] at h5; omega)
      | start t d1 h0 ht1 hs =>
        obtain ⟨h1, h2, h3, rfl⟩ := startField_ok hs
        have h5 : fpc < MAX_FIELDS := by rw [← ht]; exact h1
        refine ⟨⟨by simpa using hb, by simpa using hp, by simpa using ht⟩, ?_, h5,
          hnew t [] ht1 h1⟩
        exact Nat.mod_eq_of_lt (by simp only [MAX_FIELDS] at h5; omega))
    (d.buffer.length + 1) { d with fieldCount := 0 } 0 0 r
    ⟨hwf, rfl, Nat.zero_le _, fun i hi => absurd hi (Nat.not_lt_zero i)⟩ h
  obtain ⟨ftc1, fpc1, ⟨hw, hc, hle, hty⟩, -⟩ := key
  refine ⟨hw, by omega, ?_⟩
  intro i hi
  exact hty i (by omega)

theorem starts_length : ∀ (rest : List (Nat × List Nat)) (k : Nat) (w : List Nat),
    (starts k w rest).length = rest.length := by
  intro rest
  induction rest with
  | nil => intro k w; rfl
  | cons q rest ih =>
    obtain ⟨s, w1⟩ := q
    intro k w
    simp [starts, ih]

theorem wordType_of_digits {w : List Nat} (hne : w ≠ []) (hd : ∀ c ∈ w, isDigit c = true) :
    wordType w = 110 := by
  cases w with
  | nil => exact absurd rfl hne
  | cons c w =>
    have hna : isAlpha c = false := by
      cases ha : isAlpha c
      · rfl
      · have := isAlpha_not_isDigit ha
        rw [hd c (List.mem_cons_self _ _)] at this
        cases this
    simp [wordType, hna]

theorem wordType_of_letters {w : List Nat} (hne : w ≠ []) (hd : ∀ c ∈ w, isAlpha c = true) :
    wordType w = 97 := by
  cases w with
  | nil => exact absurd rfl hne
  | cons c w => simp [wordType, hd c (List.mem_cons_self _ _)]

/-- The fields that `parseField` records on a line of words with single
separators: their number, and the type, offset and text of each. -/
theorem parseField_fields (d : USER_DATA) (w0 : List Nat) (rest : List (Nat × List Nat))
    (tail : List Nat) (hwf : d.WF) (hbuf : d.buffer = joinLine w0 rest ++ 0 :: tail)
    (hw0 : IsWord w0) (hrest : ∀ p ∈ rest, IsSeparator p.1 ∧ IsWord p.2)
    (hn : rest.length + 1 ≤ MAX_FIELDS) :
    ∃ r : USER_DATA, parseField d = .ok r ∧ r.WF ∧ r.fieldCount = rest.length + 1 ∧
      r.fieldPosition[0]? = some 0 ∧
      ∀ (i : Nat) (w : List Nat), (w0 :: rest.map Prod.snd)[i]? = some w →
        r.fieldType[i]? = some (wordType w) ∧
          ∃ p : Nat, r.fieldPosition[i]? = some p ∧ cString r.buffer p = some w := by
  obtain ⟨hb, hp, ht⟩ := hwf
  have hpf := parseField_joinLine d w0 rest tail hbuf hw0 hrest hn ht hp
    (by rw [hb]; simp [MAX_CHARS])
  refine Exists.intro _ (And.intro hpf ?_)
  refine ⟨(parseField_table ⟨hb, hp, ht⟩ hpf).1, rfl, ?_, ?_⟩
  · have := setFrom_getElem? (0 :: starts 0 w0 rest) d.fieldPosition 0 0
      (by
        simp [starts_length, hp]; omega)
      (by simp)
    simpa using this
  · intro i w hi
    have hilt : i < rest.length + 1 := by
      have := (List.getElem?_eq_some_iff.mp hi).1
      simpa using this
    constructor
    · have := setFrom_getElem? (wordType w0 :: rest.map fun p => wordType p.2) d.fieldType 0 i
        (by simp [ht]; omega) (by simpa using hilt)
      simp only [Nat.zero_add] at this
      rw [this]
      have hmap : (wordType w0 :: rest.map fun p => wordType p.2) =
          (w0 :: rest.map Prod.snd).map wordType := by simp [List.map_map, Function.comp_def]
      rw [hmap, List.getElem?_map, hi]
      rfl
    · obtain ⟨p, hp1, hp2⟩ := cString_nulJoin rest w0 [] tail i w hw0
        (fun q hq => (hrest q hq).2) hi
      refine ⟨p, ?_, by simpa using hp2⟩
      have hsl : (starts 0 w0 rest).length = rest.length := starts_length rest 0 w0
      have := setFrom_getElem? (0 :: starts 0 w0 rest) d.fieldPosition 0 i
        (by simp [hsl, hp]; omega) (by simpa [hsl] using hilt)
      simp only [Nat.zero_add] at this
      rw [this]
      simpa using hp1

/-- What `getFieldInteger` returns for a field of a tokenized line whose
characters have codes from `'0'` on. -/
theorem getFieldInteger_field {d r : USER_DATA} {i : Nat} {s : List Nat} (hwf : d.WF)
    (hp : parseField d = .ok r) (hi : i < r.fieldCount) (hs : fieldText r i = some s)
    (h48 : ∀ c ∈ s, 48 ≤ c) (hv : decimalSum s < 2 ^ 32) :
    getFieldInteger r i = .ok (decimalSum s) := by
  obtain ⟨⟨hb, -, -⟩, hle, hty⟩ := parseField_table hwf hp
  unfold fieldText at hs
  cases hpos : r.fieldPosition[i]? with
  | none => simp [hpos] at hs
  | some p =>
    simp only [hpos] at hs
    have hlen : s.length ≤ MAX_CHARS := by
      have := (cString_some hs).2.1
      omega
    rcases hty i hi with ht | ht
    · exact getFieldInteger_sum (by omega) ht (Or.inl rfl) hpos hs hlen h48 hv
    · exact getFieldInteger_sum (by omega) ht (Or.inr rfl) hpos hs hlen h48 hv

theorem decimalSum_pos : ∀ (s : List Nat) (c : Nat), c ∈ s → 48 < c → 0 < decimalSum s := by
  intro s
  induction s with
  | nil => intro c hc; cases hc
  | cons x s ih =>
    intro c hc h48
    simp only [decimalSum]
    rcases List.mem_cons.mp hc with rfl | hc
    · have : 0 < (c - 48) * 10 ^ s.length := Nat.mul_pos (by omega) (pow_pos (by decide) _)
      omega
    · have := ih c hc h48
      omega

/-! ## The count of passes of `parseField` is large enough -/

theorem initField_ne_fuel (d : USER_DATA) (t ftc fpc : Nat) :
    initField d t ftc fpc ≠ .error .fuel := by
  unfold initField; split <;> simp

theorem startField_ne_fuel (d : USER_DATA) (t ftc fpc : Nat) :
    startField d t ftc fpc ≠ .error .fuel := by
  unfold startField; split
  · split <;> simp
  · simp

theorem boundary_ne_fuel (d : USER_DATA) (cls : Nat → Bool) (other ftc fpc : Nat) :
    boundary d cls other ftc fpc ≠ .error .fuel := by
  unfold boundary
  split
  · simp
  · split
    · simp
    · cases fpc with
      | zero => simp [prevFieldType]
      | succ k =>
        simp only [prevFieldType]
        cases d.fieldType[k]? <;> simp

theorem checkNumeric_ne_fuel (d : USER_DATA) (c ftc fpc : Nat) :
    checkNumeric d c ftc fpc ≠ .error .fuel := by
  unfold checkNumeric
  split
  · split
    · rename_i e he
      intro h
      injection h with h
      subst h
      exact boundary_ne_fuel _ _ _ _ _ he
    · split
      · rename_i e he
        intro h
        injection h with h
        subst h
        exact startField_ne_fuel _ _ _ _ he
      · simp
    · simp
  · simp

theorem checkAlpha_ne_fuel (d : USER_DATA) (c ftc fpc : Nat) :
    checkAlpha d c ftc fpc ≠ .error .fuel := by
  unfold checkAlpha
  split
  · split
    · rename_i e he
      intro h
      injection h with h
      subst h
      exact boundary_ne_fuel _ _ _ _ _ he
    · split
      · rename_i e he
        intro h
        injection h with h
        subst h
        exact startField_ne_fuel _ _ _ _ he
      · simp
    · exact checkNumeric_ne_fuel _ _ _ _
  · exact checkNumeric_ne_fuel _ _ _ _

theorem checkInitial_ne_fuel (d : USER_DATA) (c ftc fpc : Nat) :
    checkInitial d c ftc fpc ≠ .error .fuel := by
  unfold checkInitial
  by_cases ha : isAlpha c = true
  · simp only [ha, if_true]
    cases hi : initField d 97 ftc fpc with
    | error e =>
      simp only
      intro h
      injection h with h
      subst h
      exact initField_ne_fuel _ _ _ _ hi
    | ok d1 =>
      simp only
      split
      · split
        · rename_i e he
          intro h
          injection h with h
          subst h
          exact initField_ne_fuel _ _ _ _ he
        · simp
      · simp
  · simp only [ha, Bool.false_eq_true, if_false]
    split
    · split
      · rename_i e he
        intro h
        injection h with h
        subst h
        exact initField_ne_fuel _ _ _ _ he
      · simp
    · simp

theorem parseStep_ne_fuel (d : USER_DATA) (ftc fpc : Nat) :
    parseStep d ftc fpc ≠ .error .fuel := by
  unfold parseStep
  split
  · simp
  · split
    · exact checkInitial_ne_fuel _ _ _ _
    · exact checkAlpha_ne_fuel _ _ _ _

/-- The count of passes that `parseField` allows is never used up: the answer
`Fault.fuel` does not occur. -/
theorem parseLoop_ne_fuel : ∀ (n : Nat) (d : USER_DATA) (ftc fpc : Nat),
    ftc ≤ d.buffer.length → d.buffer.length < ftc + n →
    parseLoop n d ftc fpc ≠ .error .fuel := by
  intro n
  induction n with
  | zero => intro d ftc fpc h1 h2; omega
  | succ n ih =>
    intro d ftc fpc h1 h2
    unfold parseLoop
    cases hs : parseStep d ftc fpc with
    | error e =>
      simp only
      intro h
      injection h with h
      subst h
      exact parseStep_ne_fuel _ _ _ hs
    | ok k =>
      cases k with
      | ret d1 => simp
      | next d1 ftc1 fpc1 =>
        simp only
        obtain ⟨hlt, rfl, hk⟩ := parseStep_next hs
        exact ih d1 (ftc + 1) fpc1 (by rw [hk.buffer_length]; omega)
          (by rw [hk.buffer_length]; omega)

theorem parseField_ne_fuel (d : USER_DATA) : parseField d ≠ .error .fuel :=
  parseLoop_ne_fuel _ _ 0 0 (Nat.zero_le _) (by simp)

theorem decimalSum_eq_ofDigits (s : List Nat) :
    decimalSum s = Nat.ofDigits 10 ((s.map fun c => c - 48).reverse) := by
  induction s with
  | nil => simp [decimalSum]
  | cons c s ih =>
    simp only [decimalSum, List.map_cons, List.reverse_cons, Nat.ofDigits_append,
      Nat.ofDigits_singleton, List.length_reverse, List.length_map, ih]
    ring

/-! ## The claims about the tokenizer -/

/-- C1. On a line of one to `MAX_FIELDS` words, each a non-empty run of only
letters or only digits, with one separator (no letter, no digit, not NUL)
between consecutive words and nothing after the last word, `parseField` returns
with `fieldCount` the number of words, and for every word `fieldType[i]` is `'a'`
for a letter word and `'n'` for a digit word and the NUL-terminated string at
`buffer[fieldPosition[i]]` is the word. -/
theorem parseField_words (d : USER_DATA) (w0 : List Nat) (rest : List (Nat × List Nat))
    (tail : List Nat) (hwf : d.WF) (hbuf : d.buffer = joinLine w0 rest ++ 0 :: tail)
    (hw0 : IsWord w0) (hrest : ∀ p ∈ rest, IsSeparator p.1 ∧ IsWord p.2)
    (hn : rest.length + 1 ≤ MAX_FIELDS) :
    ∃ r : USER_DATA, parseField d = .ok r ∧ r.fieldCount = rest.length + 1 ∧
      ∀ (i : Nat) (w : List Nat), (w0 :: rest.map Prod.snd)[i]? = some w →
        ((∀ c ∈ w, isAlpha c = true) → r.fieldType[i]? = some 97) ∧
        ((∀ c ∈ w, isDigit c = true) → r.fieldType[i]? = some 110) ∧
        fieldText r i = some w := by
  obtain ⟨r, hr, -, hc, -, hf⟩ := parseField_fields d w0 rest tail hwf hbuf hw0 hrest hn
  refine ⟨r, hr, hc, ?_⟩
  intro i w hi
  obtain ⟨ht, p, hp, hs⟩ := hf i w hi
  have hw : IsWord w := by
    cases i with
    | zero =>
      simp only [List.getElem?_cons_zero, Option.some.injEq] at hi
      exact hi ▸ hw0
    | succ i =>
      simp only [List.getElem?_cons_succ, List.getElem?_map] at hi
      cases hq : rest[i]? with
      | none => simp [hq] at hi
      | some q =>
        simp only [hq, Option.map, Option.some.injEq] at hi
        exact hi ▸ (hrest q (List.getElem?_mem hq)).2
  refine ⟨fun ha => ?_, fun hd => ?_, ?_⟩
  · rw [ht, wordType_of_letters hw.1 ha]
  · rw [ht, wordType_of_digits hw.1 hd]
  · simp [fieldText, hp, hs]

/-- C1, on the line "water 6 30 7 0". -/
theorem parseField_words_witness :
    ∃ r : USER_DATA, parseField (lineData (chars "water 6 30 7 0")) = .ok r ∧
      r.fieldCount = 4 + 1 ∧
      ∀ (i : Nat) (w : List Nat),
        (chars "water" :: [chars "6", chars "30", chars "7", chars "0"])[i]? = some w →
        ((∀ c ∈ w, isAlpha c = true) → r.fieldType[i]? = some 97) ∧
        ((∀ c ∈ w, isDigit c = true) → r.fieldType[i]? = some 110) ∧
        fieldText r i = some w :=
  parseField_words (lineData (chars "water 6 30 7 0")) (chars "water")
    [(32, chars "6"), (32, chars "30"), (32, chars "7"), (32, chars "0")]
    (List.replicate 66 0) (by decide) (by decide) (by decide) (by decide) (by decide)

/-- C2, at the lines "pump  on" and "pump on ": a separator that is not
directly before the next field stays in the text of the field before it, so
field 0 of the first line is "pump " and field 1 of the second is "on ", both
of type `'a'`. -/
theorem parseField_keeps_separator :
    (parseField (lineData (chars "pump  on"))).map
        (fun r => (r.fieldCount, r.fieldType[0]?, fieldText r 0)) =
      .ok (2, some 97, some (chars "pump ")) ∧
    (parseField (lineData (chars "pump on "))).map
        (fun r => (r.fieldCount, r.fieldType[1]?, fieldText r 1)) =
      .ok (2, some 97, some (chars "on ")) := by
  decide

/-- C3, at the line "ab12": the runs are "ab" and "12", the field texts are "a"
and "12"; the terminator of the second field is stored over the last letter of
the first. -/
theorem parseField_loses_character :
    classRuns (chars "ab12") = [chars "ab", chars "12"] ∧
    (parseField (lineData (chars "ab12"))).map fieldTexts =
      .ok [some (chars "a"), some (chars "12")] := by
  decide

/-- C4, at the line "a1b2c3": five fields are recorded, the pass over the sixth
character does not reach the test of `fieldCount` and stores to `fieldType[5]`. -/
theorem parseField_sixth_field :
    parseField (lineData (chars "a1b2c3")) = .error (.fieldBounds 5) := by
  decide

/-! ## The claims about the command predicate and the accessors -/

/-- C5, at the lines "status 1" and " status": field 0 is "status" in both, yet
`isCommand(&data, "status", 0)` is false. On the first line the count of
arguments, 1, is compared the wrong way round with `minArguments`; on the
second the offset 1 of field 0 is used as the number of the field to compare. -/
theorem isCommand_status_rejected :
    (parseField (lineData (chars "status 1"))).map
        (fun r => (r.fieldCount, fieldText r 0, isCommand r (chars "status") 0)) =
      .ok (2, some (chars "status"), .ok false) ∧
    (parseField (lineData (chars " status"))).map
        (fun r => (r.fieldCount, fieldText r 0, isCommand r (chars "status") 0)) =
      .ok (1, some (chars "status"), .ok false) := by
  decide

/-- What `isCommand` returns when no field is counted: the test of the number of
arguments, `minArguments >= fieldCount - 1`, is `minArguments >= -1` and holds
for every `minArguments`, so the answer is that of the comparison of the
strings alone. -/
theorem isCommand_fieldless {d : USER_DATA} {p0 : Nat} {s : List Nat} (cmd : List Nat)
    (minArgs : Nat) (hcnt : d.fieldCount = 0) (hp : d.fieldPosition[0]? = some p0)
    (hs : getFieldString d p0 = .ok s) :
    isCommand d cmd minArgs = .ok (decide (s = cmd)) := by
  unfold isCommand
  simp only [hp, hs, hcnt]
  have hle : (-1 : Int) ≤ (minArgs : Int) := by omega
  simp [hle]

/-- C6, after the lines "x  status", " x" and " " are entered in this order:
the last line has no field, so the number of its arguments, `fieldCount - 1`,
is -1 and below every `minArguments`, and `isCommand(&data, "status", 0)` and
`isCommand(&data, "status", 4)` are true, by the text "status" of the first
line that the table still addresses. -/
theorem isCommand_stale_table :
    (((enterLine (chars "x  status") zeroData).bind (enterLine (chars " x"))).bind
        (enterLine (chars " "))).map
        (fun r => (r.fieldCount, decide r.WF, (r.fieldCount : Int) - 1,
          isCommand r (chars "status") 0, isCommand r (chars "status") 4)) =
      .ok (0, true, -1, .ok true, .ok true) := by
  decide

/-- C7. For a tokenized line and a field `i < fieldCount` whose text is a
string of digits with decimal value below `2^32`, `getFieldInteger` returns the
sum over `k` of `(d_k - '0') * 10^(n-1-k)`, which is the number that the digits
`d_0 ... d_(n-1)` write in base ten. -/
theorem getFieldInteger_decimal (d r : USER_DATA) (i : Nat) (s : List Nat) (hwf : d.WF)
    (hp : parseField d = .ok r) (hi : i < r.fieldCount) (hs : fieldText r i = some s)
    (hd : ∀ c ∈ s, isDigit c = true) (hv : decimalSum s < 2 ^ 32) :
    getFieldInteger r i = .ok (decimalSum s) ∧
      decimalSum s = Nat.ofDigits 10 ((s.map fun c => c - 48).reverse) := by
  refine ⟨getFieldInteger_field hwf hp hi hs (fun c hc => ?_) hv, decimalSum_eq_ofDigits s⟩
  have := hd c hc
  simp only [isDigit, Bool.and_eq_true, decide_eq_true_eq] at this
  exact this.1

/-- C7, on the line "1234": the field text "1234" gives 1234. -/
theorem getFieldInteger_decimal_witness :
    getFieldInteger
        ⟨chars "1234" ++ List.replicate 77 0, 1, [0, 0, 0, 0, 0], [110, 0, 0, 0, 0]⟩ 0 =
      .ok 1234 ∧ 1234 = Nat.ofDigits 10 [4, 3, 2, 1] :=
  getFieldInteger_decimal (lineData (chars "1234")) _ 0 (chars "1234") (by decide) (by decide)
    (by decide) (by decide) (by decide) (by decide)

/-- C8 fails after the lines "pump on" and "status" are entered in this order:
the second line has one field, index 1 is out of range, and `getFieldString`
returns "s" and `getFieldInteger` 67, read where field 1 of the first line was. -/
theorem getField_stale_index :
    ((enterLine (chars "pump on") zeroData).bind (enterLine (chars "status"))).map
        (fun r => (r.fieldCount, getFieldString r 1, getFieldInteger r 1)) =
      .ok (1, .ok (chars "s"), .ok 67) := by
  decide

/-- C8, amended. For an index `i >= fieldCount` that is above `MAX_FIELDS`, or
whose entry of `fieldType` holds no type letter, `getFieldString` returns the
empty string and `getFieldInteger` returns 0. -/
theorem getField_out_of_range (d : USER_DATA) (i : Nat) (_hi : d.fieldCount ≤ i)
    (ht : MAX_FIELDS < i ∨ ∃ t, d.fieldType[i]? = some t ∧ t ≠ 97 ∧ t ≠ 110) :
    getFieldString d i = .ok [] ∧ getFieldInteger d i = .ok 0 := by
  have hs : getFieldString d i = .ok [] := by
    unfold getFieldString
    rcases ht with h | ⟨t, h1, h2, h3⟩
    · simp [Nat.not_le.mpr h]
    · split
      · simp [h1, h2, h3]
      · rfl
  refine ⟨hs, ?_⟩
  unfold getFieldInteger
  simp only [hs]
  split
  · simp [integerLoop]
  · rfl

/-- C8, amended, at index 1 of the zeroed structure after the line "status" is
entered into it. -/
theorem getField_out_of_range_witness :
    getFieldString
        ⟨chars "status" ++ List.replicate 75 0, 1, [0, 0, 0, 0, 0], [97, 0, 0, 0, 0]⟩ 1 =
      .ok [] ∧
    getFieldInteger
        ⟨chars "status" ++ List.replicate 75 0, 1, [0, 0, 0, 0, 0], [97, 0, 0, 0, 0]⟩ 1 =
      .ok 0 :=
  getField_out_of_range _ 1 (by decide) (Or.inr ⟨0, by decide, by decide, by decide⟩)

/-- C9 fails at the line "ab": field 0 is the alphabetic field "ab" and
`getFieldInteger` returns `('a' - '0') * 10 + ('b' - '0') = 540`. -/
theorem getFieldInteger_letters :
    (parseField (lineData (chars "ab"))).map
        (fun r => (r.fieldCount, r.fieldType[0]?, fieldText r 0, getFieldInteger r 0)) =
      .ok (1, some 97, some (chars "ab"), .ok 540) := by
  decide

/-- C9, amended. For a tokenized line and a field `i < fieldCount` whose text
is made of letters and digits, has a letter in it, and has its sum over `k` of
`(c_k - '0') * 10^(n-1-k)` below `2^32`, `getFieldInteger` returns that sum, and
the sum is not 0. -/
theorem getFieldInteger_nondigit (d r : USER_DATA) (i : Nat) (s : List Nat) (hwf : d.WF)
    (hp : parseField d = .ok r) (hi : i < r.fieldCount) (hs : fieldText r i = some s)
    (hc : ∀ c ∈ s, isAlpha c = true ∨ isDigit c = true) (hx : ∃ c ∈ s, isAlpha c = true)
    (hv : decimalSum s < 2 ^ 32) :
    getFieldInteger r i = .ok (decimalSum s) ∧ 0 < decimalSum s := by
  constructor
  · refine getFieldInteger_field hwf hp hi hs (fun c hcs => ?_) hv
    rcases hc c hcs with h | h
    · simp only [isAlpha, Bool.or_eq_true, Bool.and_eq_true, decide_eq_true_eq] at h
      omega
    · simp only [isDigit, Bool.and_eq_true, decide_eq_true_eq] at h
      exact h.1
  · obtain ⟨c, hcs, ha⟩ := hx
    refine decimalSum_pos s c hcs ?_
    simp only [isAlpha, Bool.or_eq_true, Bool.and_eq_true, decide_eq_true_eq] at ha
    omega

/-- C9, amended, on the line "ab". -/
theorem getFieldInteger_nondigit_witness :
    getFieldInteger ⟨chars "ab" ++ List.replicate 79 0, 1, [0, 0, 0, 0, 0], [97, 0, 0, 0, 0]⟩ 0 =
      .ok 540 ∧ 0 < 540 :=
  getFieldInteger_nondigit (lineData (chars "ab")) _ 0 (chars "ab") (by decide) (by decide)
    (by decide) (by decide) (by decide) (by decide) (by decide)

/-! ## The claims about the commands of `main` -/

theorem isCommand_eq {d : USER_DATA} {s : List Nat} (cmd : List Nat) (k : Nat)
    (hp : d.fieldPosition[0]? = some 0) (hs : getFieldString d 0 = .ok s) :
    isCommand d cmd k = .ok (decide (s = cmd) && decide ((d.fieldCount : Int) - 1 ≤ (k : Int))) := by
  simp [isCommand, hp, hs]

/-- C10. On a line "time H M", with `H` and `M` non-empty strings of digits
and `H*3600 + M*60` below `2^32`, the command part of `main` returns, loads
`HIB_RTCLD_R` with `H*3600 + M*60`, and sends the echo of the three fields and
nothing else, so no "Invalid Command". -/
theorem dispatch_time (d : USER_DATA) (m : MainState) (H M tail : List Nat) (hwf : d.WF)
    (hbuf : d.buffer = chars "time" ++ 32 :: H ++ 32 :: M ++ 0 :: tail)
    (hH : H ≠ []) (hHd : ∀ c ∈ H, isDigit c = true)
    (hM : M ≠ []) (hMd : ∀ c ∈ M, isDigit c = true)
    (hv : decimalSum H * 3600 + decimalSum M * 60 < 2 ^ 32) :
    ∃ (r : USER_DATA) (m1 : MainState), dispatch d m = .ok (r, m1) ∧
      m1.HIB_RTCLD_R = decimalSum H * 3600 + decimalSum M * 60 ∧
      m1.out = m.out ++ [.field 97 (chars "time"), .field 110 H, .field 110 M] := by
  have hsep : IsSeparator 32 := by decide
  obtain ⟨r, hr, hrwf, hc, hp0, hf⟩ := parseField_fields d (chars "time") [(32, H), (32, M)]
    tail hwf (by rw [hbuf]; simp [joinLine]) (by decide)
    (by
      intro p hp
      simp only [List.mem_cons, List.mem_singleton, List.not_mem_nil, or_false] at hp
      rcases hp with rfl | rfl
      · exact ⟨hsep, hH, Or.inr hHd⟩
      · exact ⟨hsep, hM, Or.inr hMd⟩)
    (by simp [MAX_FIELDS])
  obtain ⟨ht0, p0, hq0, hs0⟩ := hf 0 (chars "time") rfl
  obtain ⟨ht1, p1, hq1, hs1⟩ := hf 1 H rfl
  obtain ⟨ht2, p2, hq2, hs2⟩ := hf 2 M rfl
  rw [hp0] at hq0
  injection hq0 with hq0
  subst hq0
  rw [show wordType (chars "time") = 97 by decide] at ht0
  rw [wordType_of_digits hH hHd] at ht1
  rw [wordType_of_digits hM hMd] at ht2
  have hb := hrwf.1
  have hlen : ∀ {p : Nat} {s : List Nat}, cString r.buffer p = some s → s.length ≤ MAX_CHARS := by
    intro p s h
    have := (cString_some h).2.1
    omega
  have h48 : ∀ {s : List Nat}, (∀ c ∈ s, isDigit c = true) → ∀ c ∈ s, 48 ≤ c := by
    intro s h c hcs
    have := h c hcs
    simp only [isDigit, Bool.and_eq_true, decide_eq_true_eq] at this
    exact this.1
  have hg0 : getFieldString r 0 = .ok (chars "time") :=
    getFieldString_eq (by decide) ht0 (Or.inl rfl) hp0 hs0 (hlen hs0)
  have hi1 : getFieldInteger r 1 = .ok (decimalSum H) :=
    getFieldInteger_sum (by decide) ht1 (Or.inr rfl) hq1 hs1 (hlen hs1) (h48 hHd) (by omega)
  have hi2 : getFieldInteger r 2 = .ok (decimalSum M) :=
    getFieldInteger_sum (by decide) ht2 (Or.inr rfl) hq2 hs2 (hlen hs2) (h48 hMd) (by omega)
  have hc3 : r.fieldCount = 3 := hc
  have hecho : echoLoop r 3 0 =
      .ok [.field 97 (chars "time"), .field 110 H, .field 110 M] := by
    simp [echoLoop, ht0, ht1, ht2, hp0, hq1, hq2, hs0, hs1, hs2]
  have hsec : daySeconds (decimalSum H) (decimalSum M) =
      decimalSum H * 3600 + decimalSum M * 60 := by
    unfold daySeconds
    omega
  have e1 : decide (chars "time" = chars "status") = false := by decide
  have e2 : decide (chars "time" = chars "alert") = false := by decide
  have e3 : decide (chars "time" = chars "pump") = false := by decide
  have e4 : decide (chars "time" = chars "water") = false := by decide
  have e5 : decide (chars "time" = chars "level") = false := by decide
  have hdisp : dispatch d m = .ok (r,
      { HIB_RTCLD_R := daySeconds (decimalSum H) (decimalSum M)
        start_time := m.start_time
        end_time := m.end_time
        moisture_level := m.moisture_level
        light_level := m.light_level
        pump := m.pump
        valid := true
        out := m.out ++ [.field 97 (chars "time"), .field 110 H, .field 110 M] }) := by
    simp [dispatch, hr, Except.bind, hecho, runCommands, cmdStatus, cmdAlert, cmdPump,
      cmdTime, cmdWater, cmdLevel, isCommand_eq _ _ hp0 hg0, hc3, e1, e2, e3, e4, e5, hi1, hi2,
      cmdInvalid]
  exact ⟨r, _, hdisp, hsec, rfl⟩

/-- C10, on the line "time 23 59": the register is loaded with 86340. -/
theorem dispatch_time_witness :
    ∃ (r : USER_DATA) (m1 : MainState),
      dispatch (lineData (chars "time 23 59")) ⟨0, 86280, 86340, 0, 1000, false, false, []⟩ =
        .ok (r, m1) ∧
      m1.HIB_RTCLD_R = 23 * 3600 + 59 * 60 ∧
      m1.out = [] ++ [.field 97 (chars "time"), .field 110 (chars "23"), .field 110 (chars "59")] :=
  dispatch_time (lineData (chars "time 23 59")) ⟨0, 86280, 86340, 0, 1000, false, false, []⟩
    (chars "23") (chars "59") (List.replicate 70 0) (by decide) (by decide) (by decide)
    (by decide) (by decide) (by decide) (by decide)

/-! ## The claims about the commands `water` and `pump` -/

/-- C11. On a line "water H1 M1 H2 M2", with the four arguments non-empty
strings of digits and `H1*3600 + M1*60` and `H2*3600 + M2*60` below `2^32`, the
command part of `main` returns, sets `start_time = H1*3600 + M1*60` and
`end_time = H2*3600 + M2*60`, and leaves `moisture_level` and `light_level` as
they were. -/
theorem dispatch_water (d : USER_DATA) (m : MainState) (H1 M1 H2 M2 tail : List Nat)
    (hwf : d.WF)
    (hbuf : d.buffer = chars "water" ++ 32 :: H1 ++ 32 :: M1 ++ 32 :: H2 ++ 32 :: M2 ++ 0 :: tail)
    (hH1 : H1 ≠ []) (hH1d : ∀ c ∈ H1, isDigit c = true)
    (hM1 : M1 ≠ []) (hM1d : ∀ c ∈ M1, isDigit c = true)
    (hH2 : H2 ≠ []) (hH2d : ∀ c ∈ H2, isDigit c = true)
    (hM2 : M2 ≠ []) (hM2d : ∀ c ∈ M2, isDigit c = true)
    (hv1 : decimalSum H1 * 3600 + decimalSum M1 * 60 < 2 ^ 32)
    (hv2 : decimalSum H2 * 3600 + decimalSum M2 * 60 < 2 ^ 32) :
    ∃ (r : USER_DATA) (m1 : MainState), dispatch d m = .ok (r, m1) ∧
      m1.start_time = decimalSum H1 * 3600 + decimalSum M1 * 60 ∧
      m1.end_time = decimalSum H2 * 3600 + decimalSum M2 * 60 ∧
      m1.moisture_level = m.moisture_level ∧ m1.light_level = m.light_level := by
  have hsep : IsSeparator 32 := by decide
  obtain ⟨r, hr, hrwf, hc, hp0, hf⟩ := parseField_fields d (chars "water")
    [(32, H1), (32, M1), (32, H2), (32, M2)] tail hwf (by rw [hbuf]; simp [joinLine])
    (by decide)
    (by
      intro p hp
      simp only [List.mem_cons, List.mem_singleton, List.not_mem_nil, or_false] at hp
      rcases hp with rfl | rfl | rfl | rfl
      · exact ⟨hsep, hH1, Or.inr hH1d⟩
      · exact ⟨hsep, hM1, Or.inr hM1d⟩
      · exact ⟨hsep, hH2, Or.inr hH2d⟩
      · exact ⟨hsep, hM2, Or.inr hM2d⟩)
    (by simp [MAX_FIELDS])
  obtain ⟨ht0, p0, hq0, hs0⟩ := hf 0 (chars "water") rfl
  obtain ⟨ht1, p1, hq1, hs1⟩ := hf 1 H1 rfl
  obtain ⟨ht2, p2, hq2, hs2⟩ := hf 2 M1 rfl
  obtain ⟨ht3, p3, hq3, hs3⟩ := hf 3 H2 rfl
  obtain ⟨ht4, p4, hq4, hs4⟩ := hf 4 M2 rfl
  rw [hp0] at hq0
  injection hq0 with hq0
  subst hq0
  rw [show wordType (chars "water") = 97 by decide] at ht0
  rw [wordType_of_digits hH1 hH1d] at ht1
  rw [wordType_of_digits hM1 hM1d] at ht2
  rw [wordType_of_digits hH2 hH2d] at ht3
  rw [wordType_of_digits hM2 hM2d] at ht4
  have hb := hrwf.1
  have hlen : ∀ {p : Nat} {s : List Nat}, cString r.buffer p = some s → s.length ≤ MAX_CHARS := by
    intro p s h
    have := (cString_some h).2.1
    omega
  have h48 : ∀ {s : List Nat}, (∀ c ∈ s, isDigit c = true) → ∀ c ∈ s, 48 ≤ c := by
    intro s h c hcs
    have := h c hcs
    simp only [isDigit, Bool.and_eq_true, decide_eq_true_eq] at this
    exact this.1
  have hg0 : getFieldString r 0 = .ok (chars "water") :=
    getFieldString_eq (by decide) ht0 (Or.inl rfl) hp0 hs0 (hlen hs0)
  have hi1 : getFieldInteger r 1 = .ok (decimalSum H1) :=
    getFieldInteger_sum (by decide) ht1 (Or.inr rfl) hq1 hs1 (hlen hs1) (h48 hH1d) (by omega)
  have hi2 : getFieldInteger r 2 = .ok (decimalSum M1) :=
    getFieldInteger_sum (by decide) ht2 (Or.inr rfl) hq2 hs2 (hlen hs2) (h48 hM1d) (by omega)
  have hi3 : getFieldInteger r 3 = .ok (decimalSum H2) :=
    getFieldInteger_sum (by decide) ht3 (Or.inr rfl) hq3 hs3 (hlen hs3) (h48 hH2d) (by omega)
  have hi4 : getFieldInteger r 4 = .ok (decimalSum M2) :=
    getFieldInteger_sum (by decide) ht4 (Or.inr rfl) hq4 hs4 (hlen hs4) (h48 hM2d) (by omega)
  have hc5 : r.fieldCount = 5 := hc
  have hecho : echoLoop r 5 0 = .ok [.field 97 (chars "water"), .field 110 H1, .field 110 M1,
      .field 110 H2, .field 110 M2] := by
    simp [echoLoop, ht0, ht1, ht2, ht3, ht4, hp0, hq1, hq2, hq3, hq4, hs0, hs1, hs2, hs3, hs4]
  have hsec1 : daySeconds (decimalSum H1) (decimalSum M1) =
      decimalSum H1 * 3600 + decimalSum M1 * 60 := by
    unfold daySeconds
    omega
  have hsec2 : daySeconds (decimalSum H2) (decimalSum M2) =
      decimalSum H2 * 3600 + decimalSum M2 * 60 := by
    unfold daySeconds
    omega
  have e1 : decide (chars "water" = chars "status") = false := by decide
  have e2 : decide (chars "water" = chars "alert") = false := by decide
  have e3 : decide (chars "water" = chars "pump") = false := by decide
  have e4 : decide (chars "water" = chars "time") = false := by decide
  have e5 : decide (chars "water" = chars "level") = false := by decide
  have hdisp : dispatch d m = .ok (r,
      { HIB_RTCLD_R := m.HIB_RTCLD_R
        start_time := daySeconds (decimalSum H1) (decimalSum M1)
        end_time := daySeconds (decimalSum H2) (decimalSum M2)
        moisture_level := m.moisture_level
        light_level := m.light_level
        pump := m.pump
        valid := true
        out := m.out ++ [.field 97 (chars "water"), .field 110 H1, .field 110 M1,
          .field 110 H2, .field 110 M2] }) := by
    simp [dispatch, hr, Except.bind, hecho, runCommands, cmdStatus, cmdAlert, cmdPump,
      cmdTime, cmdWater, cmdLevel, isCommand_eq _ _ hp0 hg0, hc5, e1, e2, e3, e4, e5, hi1, hi2,
      hi3, hi4, cmdInvalid]
  exact ⟨r, _, hdisp, hsec1, hsec2, rfl, rfl⟩

/-- C11, on the line "water 23 58 0 1": `start_time` is 86280 and `end_time` 60. -/
theorem dispatch_water_witness :
    ∃ (r : USER_DATA) (m1 : MainState),
      dispatch (lineData (chars "water 23 58 0 1")) ⟨0, 0, 0, 7, 1000, false, false, []⟩ =
        .ok (r, m1) ∧
      m1.start_time = 23 * 3600 + 58 * 60 ∧ m1.end_time = 0 * 3600 + 1 * 60 ∧
      m1.moisture_level = 7 ∧ m1.light_level = 1000 :=
  dispatch_water (lineData (chars "water 23 58 0 1")) ⟨0, 0, 0, 7, 1000, false, false, []⟩
    (chars "23") (chars "58") (chars "0") (chars "1") (List.replicate 65 0) (by decide)
    (by decide) (by decide) (by decide) (by decide) (by decide) (by decide) (by decide)
    (by decide) (by decide) (by decide) (by decide)

/-! ## The claims about the watering window and the line reader -/

/-- C12. `isWateringAllowed(t, start, end)` is true if and only if `start < t`
and `t < end`, both bounds exclusive; so whenever `start >= end` it is false
for every `t`. -/
theorem isWateringAllowed_iff (t start stop : Nat) :
    (isWateringAllowed t start stop = true ↔ start < t ∧ t < stop) ∧
      (stop ≤ start → isWateringAllowed t start stop = false) := by
  constructor
  · simp [isWateringAllowed]
  · intro h
    simp only [isWateringAllowed, Bool.and_eq_false_imp, decide_eq_true_eq, decide_eq_false_iff_not]
    omega

/-- C12, at the window set by "water 23 58 0 1" and the time 100. -/
theorem isWateringAllowed_iff_witness :
    (isWateringAllowed 100 86280 60 = true ↔ 86280 < 100 ∧ 100 < 60) ∧
      (60 ≤ 86280 → isWateringAllowed 100 86280 60 = false) :=
  isWateringAllowed_iff 100 86280 60

set_option maxRecDepth 10000 in
/-- C14, at a stream of 81 bytes 'a': after 80 of them `getsUart0` has not
returned and waits for the next byte; the 81st is stored in `buffer[80]`, and
the terminator is then stored to `buffer[81]`, outside the buffer. -/
theorem getsUart0_overrun :
    getsUart0 (List.replicate 80 97) zeroData = .error .noInput ∧
      getsUart0 (List.replicate 81 97) zeroData = .error (.bufferBounds 81) := by
  decide

/-- C15, at the bytes 127 and 13 on an empty line: the delete byte is stored as
the first character of the line, which is returned with length 1; the byte 8
in its place is ignored. -/
theorem getsUart0_delete_stored :
    (getsUart0 [127, 13] zeroData).map (fun p => cString p.1.buffer 0) = .ok (some [127]) ∧
      (getsUart0 [8, 13] zeroData).map (fun p => cString p.1.buffer 0) = .ok (some []) := by
  decide

/-- C17, after the line "status" and then an empty line are entered: the
buffer starts with NUL, and `parseField` records one field, at offset 1, with
the text "tatus" that the earlier line left after the terminator. -/
theorem parseField_scans_past_terminator :
    ((enterLine (chars "status") zeroData).bind (enterLine [])).map
        (fun r => (r.buffer[0]?, r.fieldCount, r.fieldPosition[0]?, fieldText r 0)) =
      .ok (some 0, 1, some 1, some (chars "tatus")) := by
  decide

/-- A `uint32_t` below `2^24` is a `float`: the conversion keeps it. -/
theorem floatOfUInt32_exact (v : Nat) (hv : v < 2 ^ 24) : floatOfUInt32 v = v := by
  have hq : floatSpacing v = 1 := by
    unfold floatSpacing
    rw [if_pos hv]
  simp [floatOfUInt32, hq, Nat.mod_one]

/-- Above `2^24` the conversion rounds: 16777217 becomes 16777216, 16777219
becomes 16777220, and the largest `uint32_t` becomes `2^32`. -/
theorem floatOfUInt32_rounds :
    floatOfUInt32 16777217 = 16777216 ∧ floatOfUInt32 16777219 = 16777220 ∧
      floatOfUInt32 4294967295 = 4294967296 := by
  decide

/-- C19, after the line "status" and then an empty line are entered: the line
has length 0 and `parseField` returns with one field, whose offset 1 is not
smaller than the length of the line. -/
theorem parseField_offset_beyond_line :
    ((enterLine (chars "status") zeroData).bind fun d1 =>
        (getsUart0 [13] d1).bind fun q =>
          (parseField q.1).map fun r => (cString q.1.buffer 0, r.fieldCount, r.fieldPosition[0]?)) =
      .ok (some [], 1, some 1) := by
  decide

theorem bind_eq_ok {α β : Type} {x : Except Fault α} {f : α → Except Fault β} {b : β}
    (h : x.bind f = .ok b) : ∃ a, x = .ok a ∧ f a = .ok b := by
  cases x with
  | error e => cases h
  | ok a => exact ⟨a, rfl, h⟩

theorem cmdStatus_ok {d : USER_DATA} {m m1 : MainState} (h : cmdStatus d m = .ok m1) :
    (m1.valid = true ↔ m.valid = true ∨ isCommand d (chars "status") 0 = .ok true) ∧
      ∃ o, m1.out = m.out ++ o ∧ Output.invalid ∉ o := by
  unfold cmdStatus at h
  split at h
  · cases h
  · rename_i hc
    injection h with h
    subst h
    exact ⟨by simp [hc], [.status], rfl, by simp⟩
  · rename_i hc
    injection h with h
    subst h
    exact ⟨by simp [hc], [], by simp, by simp⟩

theorem cmdAlert_ok {d : USER_DATA} {m m1 : MainState} (h : cmdAlert d m = .ok m1) :
    (m1.valid = true ↔ m.valid = true ∨ isCommand d (chars "alert") 1 = .ok true) ∧
      m1.out = m.out := by
  unfold cmdAlert at h
  split at h
  · cases h
  · rename_i hc
    split at h
    · cases h
    · injection h with h
      subst h
      exact ⟨by simp [hc], rfl⟩
  · rename_i hc
    injection h with h
    subst h
    exact ⟨by simp [hc], rfl⟩

theorem cmdPump_ok {d : USER_DATA} {m m1 : MainState} (h : cmdPump d m = .ok m1) :
    (m1.valid = true ↔ m.valid = true ∨ (isCommand d (chars "pump") 1 = .ok true ∧
        (getFieldString d 1 = .ok (chars "on") ∨ getFieldString d 1 = .ok (chars "off")))) ∧
      m1.out = m.out := by
  unfold cmdPump at h
  split at h
  · cases h
  · rename_i hc
    split at h
    · cases h
    · rename_i x hx
      injection h with h
      subst h
      by_cases h1 : x = chars "on"
      · subst h1
        have : chars "on" ≠ chars "off" := by decide
        simp [hc, hx, this]
      · by_cases h2 : x = chars "off"
        · subst h2
          simp [hc, hx, h1]
        · simp [hc, hx, h1, h2]
  · rename_i hc
    injection h with h
    subst h
    exact ⟨by simp [hc], rfl⟩

theorem cmdTime_ok {d : USER_DATA} {m m1 : MainState} (h : cmdTime d m = .ok m1) :
    (m1.valid = true ↔ m.valid = true ∨ isCommand d (chars "time") 2 = .ok true) ∧
      m1.out = m.out := by
  unfold cmdTime at h
  split at h
  · cases h
  · rename_i hc
    split at h
    · cases h
    · split at h
      · cases h
      · injection h with h
        subst h
        exact ⟨by simp [hc], rfl⟩
  · rename_i hc
    injection h with h
    subst h
    exact ⟨by simp [hc], rfl⟩

theorem cmdWater_ok {d : USER_DATA} {m m1 : MainState} (h : cmdWater d m = .ok m1) :
    (m1.valid = true ↔ m.valid = true ∨ isCommand d (chars "water") 4 = .ok true) ∧
      m1.out = m.out := by
  unfold cmdWater at h
  split at h
  · cases h
  · rename_i hc
    split at h
    · cases h
    · split at h
      · cases h
      · split at h
        · cases h
        · split at h
          · cases h
          · injection h with h
            subst h
            exact ⟨by simp [hc], rfl⟩
  · rename_i hc
    injection h with h
    subst h
    exact ⟨by simp [hc], rfl⟩

theorem cmdLevel_ok {d : USER_DATA} {m m1 : MainState} (h : cmdLevel d m = .ok m1) :
    (m1.valid = true ↔ m.valid = true ∨ isCommand d (chars "level") 1 = .ok true) ∧
      m1.out = m.out := by
  unfold cmdLevel at h
  split at h
  · cases h
  · rename_i hc
    split at h
    · cases h
    · injection h with h
      subst h
      exact ⟨by simp [hc], rfl⟩
  · rename_i hc
    injection h with h
    subst h
    exact ⟨by simp [hc], rfl⟩

/-- The notice "Invalid Command" is what the command blocks send last, and they
send it exactly when none of them has set `valid`. -/
theorem runCommands_invalid {d : USER_DATA} {m m1 : MainState}
    (h : runCommands d m = .ok m1) :
    ∃ o, m1.out = m.out ++ o ∧ (Output.invalid ∈ o ↔ ¬ Handled d) := by
  unfold runCommands at h
  obtain ⟨a1, h1, h⟩ := bind_eq_ok h
  obtain ⟨a2, h2, h⟩ := bind_eq_ok h
  obtain ⟨a3, h3, h⟩ := bind_eq_ok h
  obtain ⟨a4, h4, h⟩ := bind_eq_ok h
  obtain ⟨a5, h5, h⟩ := bind_eq_ok h
  obtain ⟨a6, h6, h⟩ := bind_eq_ok h
  injection h with h
  obtain ⟨v1, o1, ho1, hn1⟩ := cmdStatus_ok h1
  obtain ⟨v2, ho2⟩ := cmdAlert_ok h2
  obtain ⟨v3, ho3⟩ := cmdPump_ok h3
  obtain ⟨v4, ho4⟩ := cmdTime_ok h4
  obtain ⟨v5, ho5⟩ := cmdWater_ok h5
  obtain ⟨v6, ho6⟩ := cmdLevel_ok h6
  have hv : a6.valid = true ↔ Handled d := by
    unfold Handled
    rw [v6, v5, v4, v3, v2, v1]
    simp only [Bool.false_eq_true, false_or, or_assoc]
  have hout : a6.out = m.out ++ o1 := by
    rw [ho6, ho5, ho4, ho3, ho2, ho1]
  subst h
  unfold cmdInvalid
  by_cases hval : a6.valid = true
  · refine ⟨o1, by simp [hval, hout], ?_⟩
    constructor
    · intro hin; exact absurd hin hn1
    · intro hnh; exact absurd (hv.mp hval) hnh
  · have hvf : a6.valid = false := by simpa using hval
    refine ⟨o1 ++ [.invalid], by simp [hvf, hout], ?_⟩
    constructor
    · intro _ hh; exact hval (hv.mpr hh)
    · intro _; simp

theorem echoLoop_no_invalid (d : USER_DATA) : ∀ (n i : Nat) (o : List Output),
    echoLoop d n i = .ok o → Output.invalid ∉ o := by
  intro n
  induction n with
  | zero =>
    intro i o h
    injection h with h
    subst h
    simp
  | succ n ih =>
    intro i o h
    unfold echoLoop at h
    split at h
    · cases h
    · split at h
      · cases h
      · split at h
        · cases h
        · split at h
          · cases h
          · rename_i r hr
            injection h with h
            subst h
            have := ih _ _ hr
            simp [this]

theorem isCommand_other {d : USER_DATA} {c1 c2 : List Nat} {k1 : Nat} (k2 : Nat)
    (h : isCommand d c1 k1 = .ok true) (hne : c1 ≠ c2) : isCommand d c2 k2 = .ok false := by
  unfold isCommand at h ⊢
  split at h
  · cases h
  · rename_i p0 hp0
    split at h
    · cases h
    · rename_i check hcheck
      injection h with h
      simp only [Bool.and_eq_true, decide_eq_true_eq] at h
      have : check ≠ c2 := by rw [h.1]; exact hne
      simp [hp0, hcheck, this]

theorem runCommands_pump_rejected {d : USER_DATA} (m : MainState) {x : List Nat}
    (hc : isCommand d (chars "pump") 1 = .ok true) (hx : getFieldString d 1 = .ok x)
    (h1 : x ≠ chars "on") (h2 : x ≠ chars "off") :
    runCommands d m = .ok { m with valid := false, out := m.out ++ [.invalid] } := by
  have e1 := isCommand_other 0 hc (show chars "pump" ≠ chars "status" by decide)
  have e2 := isCommand_other 1 hc (show chars "pump" ≠ chars "alert" by decide)
  have e3 := isCommand_other 2 hc (show chars "pump" ≠ chars "time" by decide)
  have e4 := isCommand_other 4 hc (show chars "pump" ≠ chars "water" by decide)
  have e5 := isCommand_other 1 hc (show chars "pump" ≠ chars "level" by decide)
  simp [runCommands, Except.bind, cmdStatus, cmdAlert, cmdPump, cmdTime, cmdWater, cmdLevel,
    cmdInvalid, hc, hx, h1, h2, e1, e2, e3, e4, e5]

/-- C13 fails at the line "pump xx": the command `pump` matches, its argument
is neither "on" nor "off", the pump pin is left as it was, and "Invalid
Command" is sent after the echo of the two fields. -/
theorem dispatch_pump_invalid :
    (dispatch (lineData (chars "pump xx")) ⟨0, 86280, 86340, 0, 1000, false, false, []⟩).map
        (fun p => (isCommand p.1 (chars "pump") 1, getFieldString p.1 1, p.2.pump, p.2.out)) =
      .ok (.ok true, .ok (chars "xx"), false,
        [.field 97 (chars "pump"), .field 97 (chars "xx"), .invalid]) := by
  decide

/-- C13, amended. When the command part of `main` returns, what it has sent
holds "Invalid Command" if and only if no command block has set `valid`: none
of `status`, `alert`, `time`, `water`, `level` matched, and `pump` did not match
with the argument "on" or "off". So on a line whose command matches `pump` with
an argument that is neither "on" nor "off" the pump pin is left as it was and
"Invalid Command" is the last thing sent. -/
theorem dispatch_invalid (d r : USER_DATA) (m m1 : MainState)
    (h : dispatch d m = .ok (r, m1)) :
    (∃ o, m1.out = m.out ++ o ∧ (Output.invalid ∈ o ↔ ¬ Handled r)) ∧
      ∀ x, isCommand r (chars "pump") 1 = .ok true → getFieldString r 1 = .ok x →
        x ≠ chars "on" → x ≠ chars "off" →
        m1.pump = m.pump ∧ m1.out.getLast? = some .invalid := by
  unfold dispatch at h
  obtain ⟨r1, hr1, h⟩ := bind_eq_ok h
  obtain ⟨e, he, h⟩ := bind_eq_ok h
  obtain ⟨m2, hm2, h⟩ := bind_eq_ok h
  injection h with h
  injection h with h3 h4
  subst h3 h4
  constructor
  · obtain ⟨o, ho, hiff⟩ := runCommands_invalid hm2
    refine ⟨e ++ o, by simp [ho], ?_⟩
    have hne := echoLoop_no_invalid _ _ _ _ he
    simp only [List.mem_append, hne, false_or]
    exact hiff
  · intro x hc hx h1 h2
    rw [runCommands_pump_rejected _ hc hx h1 h2] at hm2
    injection hm2 with hm2
    subst hm2
    simp

/-- C13, amended, on the line "pump xx". -/
theorem dispatch_invalid_witness :
    (∃ o, [Output.field 97 (chars "pump"), .field 97 (chars "xx"), .invalid] = [] ++ o ∧
        (Output.invalid ∈ o ↔
          ¬ Handled ⟨chars "pump" ++ 0 :: chars "xx" ++ List.replicate 74 0, 2, [0, 5, 0, 0, 0],
            [97, 97, 0, 0, 0]⟩)) ∧
      ∀ x, isCommand ⟨chars "pump" ++ 0 :: chars "xx" ++ List.replicate 74 0, 2,
            [0, 5, 0, 0, 0], [97, 97, 0, 0, 0]⟩ (chars "pump") 1 = .ok true →
        getFieldString ⟨chars "pump" ++ 0 :: chars "xx" ++ List.replicate 74 0, 2,
            [0, 5, 0, 0, 0], [97, 97, 0, 0, 0]⟩ 1 = .ok x →
        x ≠ chars "on" → x ≠ chars "off" →
        false = false ∧
          [Output.field 97 (chars "pump"), .field 97 (chars "xx"), .invalid].getLast? =
            some .invalid :=
  dispatch_invalid (lineData (chars "pump xx")) _
    ⟨0, 86280, 86340, 0, 1000, false, false, []⟩
    ⟨0, 86280, 86340, 0, 1000, false, false,
      [.field 97 (chars "pump"), .field 97 (chars "xx"), .invalid]⟩ (by decide)

/-! ## The claim about the lines that `getsUart0` returns -/

theorem take_set_succ {α : Type} (l : List α) (n : Nat) (b : α) (h : n < l.length) :
    (l.set n b).take (n + 1) = l.take n ++ [b] := by
  induction l generalizing n with
  | nil => simp at h
  | cons a l ih =>
    cases n with
    | zero => simp
    | succ n =>
      simp only [List.length_cons, Nat.add_lt_add_iff_right] at h
      simp [ih n h]

theorem cString_take_set (l s : List Nat) (hlt : s.length < l.length)
    (ht : l.take s.length = s) (hs : ∀ c ∈ s, c ≠ 0) :
    cString (l.set s.length 0) 0 = some s := by
  have h1 : l.set s.length 0 = s ++ 0 :: l.drop (s.length + 1) := by
    conv_lhs => rw [← List.take_append_drop s.length l, ht]
    rw [List.set_append_right _ _ (le_refl _)]
    simp only [Nat.sub_self]
    have hd : l.drop s.length = l[s.length] :: l.drop (s.length + 1) := by
      rw [List.drop_eq_getElem_cons hlt]
    rw [hd]
    rfl
  rw [h1]
  have := cString_append [] s (l.drop (s.length + 1)) hs
  simpa using this

/-- The loop of `getsUart0` from a line `s` typed so far, which lies in the
first places of the buffer, up to the carriage return. -/
theorem getsLoop_edit : ∀ (bs s : List Nat) (d : USER_DATA) (more : List Nat),
    d.buffer.length = MAX_CHARS + 1 → d.buffer.take s.length = s → (∀ c ∈ s, 32 ≤ c) →
    13 ∉ bs →
    (∀ p ∈ bs.inits, (p.foldl editStep s).length ≤ MAX_CHARS ∧
      (bs[p.length]? = some 127 → p.foldl editStep s ≠ [])) →
    ∃ d1 : USER_DATA, getsLoop (bs ++ 13 :: more) d s.length = .ok (d1, more) ∧
      cString d1.buffer 0 = some (bs.foldl editStep s) ∧
      d1.buffer.length = d.buffer.length ∧ d1.fieldCount = d.fieldCount ∧
      d1.fieldPosition = d.fieldPosition ∧ d1.fieldType = d.fieldType := by
  intro bs
  induction bs with
  | nil =>
    intro s d more hlen ht hs _ hH
    have hs80 : s.length ≤ MAX_CHARS := by
      have := (hH [] (by simp)).1
      simpa using this
    have hlt : s.length < d.buffer.length := by omega
    refine ⟨{ d with buffer := d.buffer.set s.length 0 }, ?_, ?_, by simp, rfl, rfl, rfl⟩
    · simp [getsLoop, writeBuffer, hlt]
    · exact cString_take_set d.buffer s hlt ht
        (fun c hc => by have := hs c hc; omega)
  | cons b bs ih =>
    intro s d more hlen ht hs h13 hH
    have hb13 : b ≠ 13 := fun h => h13 (by simp [h])
    have h13b : 13 ∉ bs := fun h => h13 (List.mem_cons_of_mem _ h)
    have hs80 : s.length ≤ MAX_CHARS := by
      have := (hH [] (by simp)).1
      simpa using this
    have h127 : b = 127 → s ≠ [] := by
      intro hb
      have := (hH [] (by simp)).2
      simpa [hb] using this
    have hH1 : ∀ p ∈ bs.inits, (p.foldl editStep (editStep s b)).length ≤ MAX_CHARS ∧
        (bs[p.length]? = some 127 → p.foldl editStep (editStep s b) ≠ []) := by
      intro p hp
      have := hH (b :: p) (by rw [List.inits_cons]; simp [hp])
      simpa using this
    have hstep : ∀ (s1 : List Nat) (d1 : USER_DATA), editStep s b = s1 →
        d1.buffer.length = d.buffer.length → d1.buffer.take s1.length = s1 →
        (∀ c ∈ s1, 32 ≤ c) → d1.fieldCount = d.fieldCount →
        d1.fieldPosition = d.fieldPosition → d1.fieldType = d.fieldType →
        getsLoop ((b :: bs) ++ 13 :: more) d s.length =
          getsLoop (bs ++ 13 :: more) d1 s1.length →
        ∃ d2 : USER_DATA, getsLoop ((b :: bs) ++ 13 :: more) d s.length = .ok (d2, more) ∧
          cString d2.buffer 0 = some ((b :: bs).foldl editStep s) ∧
          d2.buffer.length = d.buffer.length ∧ d2.fieldCount = d.fieldCount ∧
          d2.fieldPosition = d.fieldPosition ∧ d2.fieldType = d.fieldType := by
      intro s1 d1 he hl1 ht1 hs1 hc1 hp1 hty1 hg
      obtain ⟨d2, g1, g2, g3, g4, g5, g6⟩ := ih s1 d1 more (by rw [hl1]; exact hlen) ht1 hs1
        h13b (by rw [← he]; exact hH1)
      exact ⟨d2, by rw [hg]; exact g1, by simpa [he] using g2, by rw [g3, hl1],
        by rw [g4, hc1], by rw [g5, hp1], by rw [g6, hty1]⟩
    by_cases hdel : b = 8 ∨ b = 127
    · have he : editStep s b = s.dropLast := by simp [editStep, hdel]
      by_cases hcnt : s.length > 0
      · refine hstep s.dropLast d he rfl ?_ ?_ rfl rfl rfl ?_
        · rw [List.length_dropLast, List.dropLast_eq_take, ← ht, List.take_take]
          congr 1
          simp only [List.length_take]
          omega
        · intro c hc
          exact hs c (List.dropLast_subset s hc)
        · simp [getsLoop, hdel, hcnt]
      · have hnil : s = [] := List.length_eq_zero.mp (by omega)
        have hb8 : b = 8 := by
          rcases hdel with h | h
          · exact h
          · exact absurd hnil (h127 h)
        subst hnil hb8
        refine hstep [] d (by simp [editStep]) rfl (by simp) (by simp) rfl rfl rfl ?_
        simp [getsLoop]
    · have hb8 : b ≠ 8 := fun h => hdel (Or.inl h)
      have hb127 : b ≠ 127 := fun h => hdel (Or.inr h)
      by_cases h32 : b ≥ 32
      · have he : editStep s b = s ++ [b] := by simp [editStep, hdel, h32]
        have hlt : s.length < d.buffer.length := by omega
        have h81 : ¬ s.length + 1 = MAX_CHARS + 1 := by
          have := (hH1 [] (by simp)).1
          simp only [List.foldl_nil, he, List.length_append, List.length_singleton] at this
          omega
        refine hstep (s ++ [b]) { d with buffer := d.buffer.set s.length b } he (by simp) ?_ ?_
          rfl rfl rfl ?_
        · simp only [List.length_append, List.length_singleton]
          rw [take_set_succ _ _ _ hlt, ht]
        · intro c hc
          rcases List.mem_append.mp hc with hc | hc
          · exact hs c hc
          · simp only [List.mem_singleton] at hc
            omega
        · simp [getsLoop, hb8, hb127, hb13, h32, writeBuffer, hlt, h81]
      · have he : editStep s b = s := by simp [editStep, hdel, h32]
        refine hstep s d he rfl ht hs rfl rfl rfl ?_
        simp [getsLoop, hb8, hb127, hb13, h32]

/-- C16. For bytes `bs` without carriage return followed by a carriage return,
such that the line typed so far never has more than `MAX_CHARS` characters and
no byte 127 comes while it is empty, `getsUart0` returns and leaves in the
buffer the NUL-terminated string that folding `bs` over the empty string gives:
a byte 8 or 127 removes the last character if there is one, a byte from 32 on
is appended, every other byte is ignored. The bytes after the carriage return
are not read. -/
theorem getsUart0_line (d : USER_DATA) (bs more : List Nat)
    (hlen : d.buffer.length = MAX_CHARS + 1) (h13 : 13 ∉ bs)
    (hfit : ∀ p ∈ bs.inits, (p.foldl editStep []).length ≤ MAX_CHARS)
    (hdel : ∀ p ∈ bs.inits, bs[p.length]? = some 127 → p.foldl editStep [] ≠ []) :
    ∃ d1 : USER_DATA, getsUart0 (bs ++ 13 :: more) d = .ok (d1, more) ∧
      cString d1.buffer 0 = some (bs.foldl editStep []) := by
  obtain ⟨d1, h1, h2, -⟩ := getsLoop_edit bs [] d more hlen (by simp) (by simp) h13
    (fun p hp => ⟨hfit p hp, hdel p hp⟩)
  exact ⟨d1, h1, h2⟩

/-- C16, on the bytes of "pumq", a backspace, a byte 7 and "p on". -/
theorem getsUart0_line_witness :
    ∃ d1 : USER_DATA,
      getsUart0 ((chars "pumq" ++ [8, 7] ++ chars "p on") ++ 13 :: [65]) zeroData =
        .ok (d1, [65]) ∧
      cString d1.buffer 0 = some (chars "pump on") :=
  getsUart0_line zeroData (chars "pumq" ++ [8, 7] ++ chars "p on") [65] (by decide) (by decide)
    (by decide) (by decide)

/-! ## The read of `fieldType[fpc-1]` -/

theorem initField_error {d : USER_DATA} {t ftc fpc : Nat} {e : Fault}
    (h : initField d t ftc fpc = .error e) : e = .fieldBounds fpc := by
  unfold initField at h
  split at h
  · cases h
  · injection h with h
    exact h.symm

theorem startField_error {d : USER_DATA} {t ftc fpc : Nat} {e : Fault}
    (h : startField d t ftc fpc = .error e) :
    e = .fieldBounds fpc ∨ e = .bufferBounds (ftc - 1) := by
  unfold startField at h
  split at h
  · split at h
    · cases h
    · injection h with h
      exact Or.inr h.symm
  · injection h with h
    exact Or.inl h.symm

theorem fieldBounds_natCast_ne (k : Nat) : Fault.fieldBounds (k : Int) ≠ .fieldBounds (-1) := by
  intro h
  injection h with h
  omega

theorem boundary_error {d : USER_DATA} {cls : Nat → Bool} {other ftc fpc : Nat}
    (h : boundary d cls other ftc fpc = .error (.fieldBounds (-1))) :
    fpc = 0 ∧ ∃ c0, d.buffer[ftc - 1]? = some c0 ∧ cls c0 = true := by
  unfold boundary at h
  split at h
  · cases h
  · rename_i p hp
    split at h
    · cases h
    · rename_i hcls
      cases fpc with
      | zero => exact ⟨rfl, p, hp, by simpa using hcls⟩
      | succ k =>
        simp only [prevFieldType] at h
        cases hk : d.fieldType[k]? with
        | none =>
          simp only [hk] at h
          injection h with h
          exact absurd h (fieldBounds_natCast_ne k)
        | some t => simp [hk] at h

theorem boundary_false {d : USER_DATA} {cls : Nat → Bool} {other ftc fpc : Nat}
    (h : boundary d cls other ftc fpc = .ok false) :
    ∃ c0, d.buffer[ftc - 1]? = some c0 ∧ cls c0 = true := by
  unfold boundary at h
  split at h
  · cases h
  · rename_i p hp
    split at h
    · cases h
    · rename_i hcls
      exact ⟨p, hp, by simpa using hcls⟩

/-- The only pass of `parseField` that could read `fieldType[-1]`: no field is
recorded yet and the character before the current one is a letter or a digit. -/
theorem parseStep_underflow {d : USER_DATA} {ftc fpc : Nat}
    (h : parseStep d ftc fpc = .error (.fieldBounds (-1))) :
    fpc = 0 ∧ 0 < ftc ∧
      ∃ c0, d.buffer[ftc - 1]? = some c0 ∧ (isAlpha c0 = true ∨ isDigit c0 = true) := by
  unfold parseStep at h
  split at h
  · cases h
  · rename_i c hc
    split at h
    · -- the first pass stores to `fieldType[fpc]` only
      exfalso
      unfold checkInitial at h
      by_cases ha : isAlpha c = true
      · simp only [ha, if_true] at h
        cases hi : initField d 97 ftc fpc with
        | error e =>
          simp only [hi] at h
          injection h with h
          rw [initField_error hi] at h
          exact fieldBounds_natCast_ne fpc h
        | ok d1 =>
          simp only [hi, isAlpha_not_isDigit ha, Bool.false_eq_true, if_false] at h
          cases h
      · simp only [ha, Bool.false_eq_true, if_false] at h
        split at h
        · split at h
          · rename_i e he
            injection h with h
            rw [initField_error he] at h
            exact fieldBounds_natCast_ne fpc h
          · cases h
        · cases h
    · rename_i h0
      have hpos : 0 < ftc := Nat.pos_of_ne_zero h0
      have hstart : ∀ t, startField d t ftc fpc ≠ .error (.fieldBounds (-1)) := by
        intro t hs
        rcases startField_error hs with h1 | h1
        · exact fieldBounds_natCast_ne fpc h1.symm
        · cases h1
      have hnum : checkNumeric d c ftc fpc = .error (.fieldBounds (-1)) →
          fpc = 0 ∧ ∃ c0, d.buffer[ftc - 1]? = some c0 ∧ isDigit c0 = true := by
        intro hn
        unfold checkNumeric at hn
        split at hn
        · split at hn
          · rename_i e he
            injection hn with hn
            subst hn
            exact boundary_error he
          · split at hn
            · rename_i e he
              injection hn with hn
              subst hn
              exact absurd he (hstart 110)
            · cases hn
          · cases hn
        · cases hn
      unfold checkAlpha at h
      split at h
      · split at h
        · rename_i e he
          injection h with h
          subst h
          obtain ⟨h1, c0, h2, h3⟩ := boundary_error he
          exact ⟨h1, hpos, c0, h2, Or.inl h3⟩
        · split at h
          · rename_i e he
            injection h with h
            subst h
            exact absurd he (hstart 97)
          · cases h
        · obtain ⟨h1, c0, h2, h3⟩ := hnum h
          exact ⟨h1, hpos, c0, h2, Or.inr h3⟩
      · obtain ⟨h1, c0, h2, h3⟩ := hnum h
        exact ⟨h1, hpos, c0, h2, Or.inr h3⟩

/-- What a pass that goes on has seen: it has recorded a field, or it has left
the structure alone, and then a letter or digit it stands on follows a letter
or digit, and after the first pass the character is not NUL. -/
theorem parseStep_next_class {d d1 : USER_DATA} {ftc fpc ftc1 fpc1 : Nat}
    (h : parseStep d ftc fpc = .ok (.next d1 ftc1 fpc1)) :
    ∃ c, d.buffer[ftc]? = some c ∧
      (fpc1 = fpc + 1 ∨
        (fpc1 = fpc ∧ d1 = d ∧ (ftc = 0 ∨ c ≠ 0) ∧
          ((isAlpha c = true ∨ isDigit c = true) → 0 < ftc ∧
            ∃ c0, d.buffer[ftc - 1]? = some c0 ∧
              (isAlpha c0 = true ∨ isDigit c0 = true)))) := by
  unfold parseStep at h
  split at h
  · cases h
  · rename_i c hc
    refine ⟨c, hc, ?_⟩
    split at h
    · rename_i h0
      unfold checkInitial at h
      by_cases ha : isAlpha c = true
      · simp only [ha, if_true] at h
        cases hi : initField d 97 ftc fpc with
        | error e => simp [hi] at h
        | ok d2 =>
          simp only [hi, isAlpha_not_isDigit ha, Bool.false_eq_true, if_false] at h
          injection h with h
          injection h with h1 h2 h3
          exact Or.inl h3.symm
      · simp only [ha, Bool.false_eq_true, if_false] at h
        split at h
        · split at h
          · cases h
          · injection h with h
            injection h with h1 h2 h3
            exact Or.inl h3.symm
        · rename_i hd
          injection h with h
          injection h with h1 h2 h3
          refine Or.inr ⟨h3.symm, h1.symm, Or.inl h0, ?_⟩
          intro hcl
          rcases hcl with hcl | hcl
          · exact absurd hcl ha
          · exact absurd hcl hd
    · rename_i h0
      have hpos : 0 < ftc := Nat.pos_of_ne_zero h0
      have hret : ∀ (hprev : (isAlpha c = true ∨ isDigit c = true) →
            ∃ c0, d.buffer[ftc - 1]? = some c0 ∧ (isAlpha c0 = true ∨ isDigit c0 = true)),
          checkReturn d c ftc fpc = .next d1 ftc1 fpc1 →
          fpc1 = fpc + 1 ∨ (fpc1 = fpc ∧ d1 = d ∧ (ftc = 0 ∨ c ≠ 0) ∧
            ((isAlpha c = true ∨ isDigit c = true) → 0 < ftc ∧
              ∃ c0, d.buffer[ftc - 1]? = some c0 ∧
                (isAlpha c0 = true ∨ isDigit c0 = true))) := by
        intro hprev hr
        obtain ⟨h1, -, h3, -, h5⟩ := checkReturn_next hr
        exact Or.inr ⟨h3, h1, Or.inr h5, fun hcl => ⟨hpos, hprev hcl⟩⟩
      have hnum : ∀ (hna : isAlpha c = false), checkNumeric d c ftc fpc = .ok (.next d1 ftc1 fpc1) →
          fpc1 = fpc + 1 ∨ (fpc1 = fpc ∧ d1 = d ∧ (ftc = 0 ∨ c ≠ 0) ∧
            ((isAlpha c = true ∨ isDigit c = true) → 0 < ftc ∧
              ∃ c0, d.buffer[ftc - 1]? = some c0 ∧
                (isAlpha c0 = true ∨ isDigit c0 = true))) := by
        intro hna hn
        unfold checkNumeric at hn
        split at hn
        · split at hn
          · cases hn
          · split at hn
            · cases hn
            · injection hn with hn
              injection hn with h1 h2 h3
              exact Or.inl h3.symm
          · rename_i hb
            injection hn with hn
            obtain ⟨c0, hc0, hd0⟩ := boundary_false hb
            exact hret (fun _ => ⟨c0, hc0, Or.inr hd0⟩) hn
        · rename_i hd
          injection hn with hn
          refine hret (fun hcl => ?_) hn
          rcases hcl with hcl | hcl
          · rw [hna] at hcl; cases hcl
          · exact absurd hcl hd
      unfold checkAlpha at h
      split at h
      · rename_i ha
        split at h
        · cases h
        · split at h
          · cases h
          · injection h with h
            injection h with h1 h2 h3
            exact Or.inl h3.symm
        · rename_i hb
          obtain ⟨c0, hc0, ha0⟩ := boundary_false hb
          -- a letter is no digit, so the numeric block goes on to the return test
          have hd := isAlpha_not_isDigit ha
          unfold checkNumeric at h
          simp only [hd, Bool.false_eq_true, if_false] at h
          injection h with h
          exact hret (fun _ => ⟨c0, hc0, Or.inl ha0⟩) h
      · rename_i ha
        exact hnum (by simpa using ha) h

/-- No run of the loop of `parseField` reads `fieldType[-1]`, from a state in
which a field is recorded whenever the character before the current one is a
letter or a digit. -/
theorem parseLoop_no_underflow : ∀ (n : Nat) (d : USER_DATA) (ftc fpc : Nat),
    (0 < ftc → ∀ c0, d.buffer[ftc - 1]? = some c0 →
      (isAlpha c0 = true ∨ isDigit c0 = true) → 0 < fpc) →
    parseLoop n d ftc fpc ≠ .error (.fieldBounds (-1)) := by
  intro n
  induction n with
  | zero => intro d ftc fpc _ h; cases h
  | succ n ih =>
    intro d ftc fpc hinv h
    unfold parseLoop at h
    cases hs : parseStep d ftc fpc with
    | error e =>
      simp only [hs] at h
      injection h with h
      subst h
      obtain ⟨h0, hpos, c0, hc0, hcl⟩ := parseStep_underflow hs
      have := hinv hpos c0 hc0 hcl
      omega
    | ok k =>
      cases k with
      | ret d1 => simp [hs] at h
      | next d1 ftc1 fpc1 =>
        simp only [hs] at h
        obtain ⟨-, rfl, hk⟩ := parseStep_next hs
        obtain ⟨c, hc, hcase⟩ := parseStep_next_class hs
        refine ih d1 (ftc + 1) fpc1 ?_ h
        intro _ c0 hc0 hcl
        simp only [Nat.add_sub_cancel] at hc0
        rcases hcase with h1 | ⟨h1, h2, -, h4⟩
        · omega
        · subst h2
          rw [hc] at hc0
          injection hc0 with hc0
          subst hc0
          obtain ⟨hpos, c1, hc1, hcl1⟩ := h4 hcl
          have := hinv hpos c1 hc1 hcl1
          omega

theorem parseField_no_underflow (d : USER_DATA) :
    parseField d ≠ .error (.fieldBounds (-1)) :=
  parseLoop_no_underflow _ _ 0 0 (fun h => absurd h (Nat.lt_irrefl 0))

/-- C18 fails: there is no content of the structure on which `parseField`
reads `fieldType[fpc-1]` with `fpc = 0`. -/
theorem parseField_underflow_nowhere :
    ¬ ∃ d : USER_DATA, parseField d = .error (.fieldBounds (-1)) := by
  rintro ⟨d, h⟩
  exact parseField_no_underflow d h

/-- C18, amended. On every content of the structure, `parseField` evaluates
`fieldType[fpc-1]` only with `fpc >= 1`: the run never ends in the read of
`fieldType[-1]`. -/
theorem parseField_reads_recorded_type (d : USER_DATA) :
    parseField d ≠ .error (.fieldBounds (-1)) ∧ prevFieldType d 0 = .error (.fieldBounds (-1)) :=
  ⟨parseField_no_underflow d, rfl⟩

/-! ## The stores of `parseField` into the buffer -/

theorem getElem?_set_zero {l : List Nat} {j : Nat} (k : Nat) (h : l[j]? = some 0) :
    (l.set k 0)[j]? = some 0 := by
  by_cases hkj : k = j
  · subst hkj
    have hlt : k < l.length := by
      by_contra hge
      rw [List.getElem?_eq_none (by omega)] at h
      cases h
    rw [List.getElem?_set_self hlt]
  · rw [List.getElem?_set_ne hkj]
    exact h

theorem frame_step (d0 : USER_DATA) (hlen : d0.buffer.length ≤ 256)
    (hfl : d0.fieldPosition.length ≤ 255) :
    ∀ (d : USER_DATA) (ftc fpc : Nat) (d1 : USER_DATA) (fpc1 : Nat), Frame d0 d ftc fpc →
      ftc < d.buffer.length → StepKind d ftc fpc d1 fpc1 → Frame d0 d1 (ftc + 1) fpc1 := by
  intro d ftc fpc d1 fpc1 hF hlt hk
  obtain ⟨hb, hp, hc, hle, hA, hB, hC, hD⟩ := hF
  cases hk with
  | same =>
    exact ⟨hb, hp, hc, hle, hA, hB, fun i p hi hpos => Nat.lt_succ_of_lt (hC i p hi hpos), hD⟩
  | init t d1 h0 ht hi =>
    obtain ⟨h1, h2, rfl⟩ := initField_ok hi
    subst h0
    have hold : ∀ i, i < fpc →
        (d.fieldPosition.set fpc (0 % 256))[i]? = d.fieldPosition[i]? :=
      fun i hi => List.getElem?_set_ne (by omega)
    have hnew : (d.fieldPosition.set fpc (0 % 256))[fpc]? = some 0 := by
      rw [List.getElem?_set_self h2]
    refine ⟨hb, by simpa using hp, Nat.mod_eq_of_lt (by omega), by simpa using h2, ?_, ?_, ?_, ?_⟩
    · intro j hj
      obtain ⟨i, p, hi1, hi2, hi3, hi4⟩ := hA j hj
      exact ⟨i, p, by omega, by simp only; rw [hold i hi1]; exact hi2, hi3, hi4⟩
    · intro i p hi1 hi2 hi3
      simp only at hi2 ⊢
      by_cases hif : i = fpc
      · subst hif
        rw [hnew] at hi2
        injection hi2 with hi2
        omega
      · rw [hold i (by omega)] at hi2
        exact hB i p (by omega) hi2 hi3
    · intro i p hi1 hi2
      simp only at hi2
      by_cases hif : i = fpc
      · subst hif
        rw [hnew] at hi2
        injection hi2 with hi2
        omega
      · rw [hold i (by omega)] at hi2
        have := hC i p (by omega) hi2
        omega
    · intro i j p q hij hj hi2 hj2
      simp only at hi2 hj2
      rw [hold i (by omega)] at hi2
      have := hC i p (by omega) hi2
      omega
  | start t d1 h0 ht hs =>
    obtain ⟨h1, h2, h3, rfl⟩ := startField_ok hs
    have hmod : ftc % 256 = ftc := Nat.mod_eq_of_lt (by omega)
    have hold : ∀ i, i < fpc →
        (d.fieldPosition.set fpc (ftc % 256))[i]? = d.fieldPosition[i]? :=
      fun i hi => List.getElem?_set_ne (by omega)
    have hnew : (d.fieldPosition.set fpc (ftc % 256))[fpc]? = some ftc := by
      rw [List.getElem?_set_self h2, hmod]
    refine ⟨by simpa using hb, by simpa using hp, Nat.mod_eq_of_lt (by omega),
      by simpa using h2, ?_, ?_, ?_, ?_⟩
    · intro j hj
      simp only at hj ⊢
      by_cases hjf : ftc - 1 = j
      · exact ⟨fpc, ftc, by omega, hnew, h0, hjf.symm⟩
      · rw [List.getElem?_set_ne hjf] at hj
        obtain ⟨i, p, hi1, hi2, hi3, hi4⟩ := hA j hj
        exact ⟨i, p, by omega, by rw [hold i hi1]; exact hi2, hi3, hi4⟩
    · intro i p hi1 hi2 hi3
      simp only at hi2 ⊢
      by_cases hif : i = fpc
      · subst hif
        rw [hnew] at hi2
        injection hi2 with hi2
        subst hi2
        rw [List.getElem?_set_self h3]
      · rw [hold i (by omega)] at hi2
        exact getElem?_set_zero _ (hB i p (by omega) hi2 hi3)
    · intro i p hi1 hi2
      simp only at hi2
      by_cases hif : i = fpc
      · subst hif
        rw [hnew] at hi2
        injection hi2 with hi2
        omega
      · rw [hold i (by omega)] at hi2
        have := hC i p (by omega) hi2
        omega
    · intro i j p q hij hj hi2 hj2
      simp only at hi2 hj2
      rw [hold i (by omega)] at hi2
      have hpi := hC i p (by omega) hi2
      by_cases hjf : j = fpc
      · subst hjf
        rw [hnew] at hj2
        injection hj2 with hj2
        omega
      · rw [hold j (by omega)] at hj2
        exact hD i j p q hij (by omega) hi2 hj2

/-- What `parseField` returns stands in the relation `Frame` to what it was
given, and the last pass stood on NUL or had `MAX_FIELDS` fields. -/
theorem parseField_frame {d r : USER_DATA} (hwf : d.WF) (h : parseField d = .ok r) :
    ∃ ftc, Frame d r ftc r.fieldCount ∧ 0 < ftc ∧
      ∃ c, r.buffer[ftc]? = some c ∧ (r.fieldCount = MAX_FIELDS ∨ c = 0) := by
  obtain ⟨hb, hp, ht⟩ := hwf
  have key := parseLoop_invariant (fun x ftc fpc => Frame d x ftc fpc)
    (frame_step d (by rw [hb]; simp [MAX_CHARS]) (by rw [hp]; simp [MAX_FIELDS]))
    (d.buffer.length + 1) { d with fieldCount := 0 } 0 0 r
    ⟨rfl, rfl, rfl, Nat.zero_le _, fun j hj => absurd rfl hj,
      fun i p hi => absurd hi (Nat.not_lt_zero i), fun i p hi => absurd hi (Nat.not_lt_zero i),
      fun i j p q _ hj => absurd hj (Nat.not_lt_zero j)⟩ h
  obtain ⟨ftc1, fpc1, hF, hpos, hret⟩ := key
  have hc : r.fieldCount = fpc1 := hF.2.2.1
  rw [← hc] at hF
  exact ⟨ftc1, hF, hpos, hret⟩

/-- C20, at the line "a1": the fields start at 0 and 1, and the store
`buffer[ftc-1] = 0` of the start of field 1 goes to `buffer[0]`, the first
character 'a' of field 0, which is NUL on return; the text of field 0 is
empty, the run "a" is lost. -/
theorem parseField_first_character_overwritten :
    (lineData (chars "a1")).buffer[0]? = some 97 ∧
      (parseField (lineData (chars "a1"))).map
          (fun r => (r.fieldCount, r.fieldPosition[0]?, r.fieldPosition[1]?, r.buffer[0]?)) =
        .ok (2, some 0, some 1, some 0) ∧
      classRuns (chars "a1") = [chars "a", chars "1"] ∧
      (parseField (lineData (chars "a1"))).map fieldTexts =
        .ok [some [], some (chars "1")] := by
  decide

/-- The stores of `parseField` into the buffer: when it returns, the buffer
differs from the buffer on entry only at the indices `fieldPosition[i]-1` of
the fields `i < fieldCount` with `fieldPosition[i] >= 1`, and each of those
indices holds NUL. -/
theorem parseField_buffer_frame (d r : USER_DATA) (hwf : d.WF) (h : parseField d = .ok r) :
    (∀ j : Nat, r.buffer[j]? ≠ d.buffer[j]? →
      ∃ i p : Nat, i < r.fieldCount ∧ r.fieldPosition[i]? = some p ∧ 1 ≤ p ∧ j = p - 1) ∧
    (∀ i p : Nat, i < r.fieldCount → r.fieldPosition[i]? = some p → 1 ≤ p →
      r.buffer[p - 1]? = some 0) := by
  obtain ⟨ftc, ⟨-, -, -, -, hA, hB, -, -⟩, -, -⟩ := parseField_frame hwf h
  exact ⟨hA, hB⟩

/-! ## The offsets of the fields of a line that is not empty -/

theorem parseStep_next_nonzero {d d1 : USER_DATA} {ftc fpc ftc1 fpc1 : Nat}
    (h : parseStep d ftc fpc = .ok (.next d1 ftc1 fpc1)) (hpos : 0 < ftc) :
    d.buffer[ftc]? ≠ some 0 := by
  intro hc
  have hs : parseStep d ftc fpc = .ok (checkReturn d 0 ftc fpc) :=
    step_other hpos hc (by simp [isAlpha]) (by simp [isDigit])
  rw [hs] at h
  injection h with h
  simp [checkReturn] at h

/-- An invariant of the passes of `parseField`, where the step may use the
pass itself. -/
theorem parseLoop_invariant_step (P : USER_DATA → Nat → Nat → Prop)
    (hstep : ∀ d ftc fpc d1 fpc1, P d ftc fpc →
      parseStep d ftc fpc = .ok (.next d1 (ftc + 1) fpc1) → P d1 (ftc + 1) fpc1) :
    ∀ (n : Nat) (d : USER_DATA) (ftc fpc : Nat) (r : USER_DATA), P d ftc fpc →
      parseLoop n d ftc fpc = .ok r → ∃ ftc1 fpc1, P r ftc1 fpc1 := by
  intro n
  induction n with
  | zero => intro d ftc fpc r _ h; cases h
  | succ n ih =>
    intro d ftc fpc r hP h
    unfold parseLoop at h
    cases hs : parseStep d ftc fpc with
    | error e => simp [hs] at h
    | ok k =>
      cases k with
      | ret d1 =>
        simp only [hs] at h
        obtain ⟨rfl, -⟩ := parseStep_ret hs
        injection h with h
        subst h
        exact ⟨ftc, fpc, hP⟩
      | next d1 ftc1 fpc1 =>
        simp only [hs] at h
        obtain ⟨-, rfl, -⟩ := parseStep_next hs
        exact ih d1 (ftc + 1) fpc1 r (hstep d ftc fpc d1 fpc1 hP hs) h

/-- On a line that is not empty, every field that `parseField` records starts
inside the line, the offsets increase, and the place before every field but
the first holds NUL. -/
theorem parseField_offsets_in_line {d r : USER_DATA} {line tail : List Nat} (hwf : d.WF)
    (hbuf : d.buffer = line ++ 0 :: tail) (hne : line ≠ []) (h : parseField d = .ok r) :
    (∀ i p : Nat, i < r.fieldCount → r.fieldPosition[i]? = some p → p < line.length) ∧
    (∀ i j p q : Nat, i < j → j < r.fieldCount → r.fieldPosition[i]? = some p →
      r.fieldPosition[j]? = some q → p < q) ∧
    (∀ i p : Nat, 1 ≤ i → i < r.fieldCount → r.fieldPosition[i]? = some p →
      r.buffer[p - 1]? = some 0) := by
  obtain ⟨hb, hp, ht⟩ := hwf
  have hL : 0 < line.length := List.length_pos.mpr hne
  have hz : d.buffer[line.length]? = some 0 := by
    rw [hbuf]; exact getElem?_length_append _ _ _
  have key := parseLoop_invariant_step
    (fun x ftc fpc => Frame d x ftc fpc ∧ ftc ≤ line.length)
    (by
      intro x ftc fpc d1 fpc1 hP hs
      obtain ⟨hF, hle⟩ := hP
      obtain ⟨hlt, -, hk⟩ := parseStep_next hs
      refine ⟨frame_step d (by rw [hb]; simp [MAX_CHARS]) (by rw [hp]; simp [MAX_FIELDS])
        x ftc fpc d1 fpc1 hF hlt hk, ?_⟩
      by_contra hgt
      have heq : ftc = line.length := by omega
      have hx : x.buffer[ftc]? = some 0 := by
        by_contra hne0
        have hdiff : x.buffer[ftc]? ≠ d.buffer[ftc]? := by
          rw [heq, hz, ← heq]; exact hne0
        obtain ⟨i, p, hi, hpi, hp1, hjp⟩ := hF.2.2.2.2.1 ftc hdiff
        have := hF.2.2.2.2.2.2.1 i p hi hpi
        omega
      exact parseStep_next_nonzero hs (by omega) hx)
    (d.buffer.length + 1) { d with fieldCount := 0 } 0 0 r
    ⟨⟨rfl, rfl, rfl, Nat.zero_le _, fun j hj => absurd rfl hj,
      fun i p hi => absurd hi (Nat.not_lt_zero i), fun i p hi => absurd hi (Nat.not_lt_zero i),
      fun i j p q _ hj => absurd hj (Nat.not_lt_zero j)⟩, Nat.zero_le _⟩ h
  obtain ⟨ftc1, fpc1, ⟨-, -, hc, -, -, hB, hC, hD⟩, hle⟩ := key
  subst hc
  refine ⟨fun i p hi hpi => lt_of_lt_of_le (hC i p hi hpi) hle, hD, ?_⟩
  intro i p h1 hi hpi
  have h0 : ∀ q, r.fieldPosition[0]? = some q → q < p :=
    fun q hq => hD 0 i q p (by omega) hi hq hpi
  have hpos : 1 ≤ p := by
    have hlt0 : 0 < r.fieldPosition.length := by
      have := (List.getElem?_eq_some_iff.mp hpi).1
      omega
    have := h0 _ (List.getElem?_eq_getElem hlt0)
    omega
  exact hB i p hi hpi hpos

end WaterPot
